import Mathlib

set_option maxHeartbeats 1000000
set_option maxRecDepth 8000

/-!
Shallow embedding of `textdb.py` (Rose22/textdb): a plain-text database in
which each table is a directory, each row is a markdown file with a YAML
header block, and each table's schema is a sidecar YAML file.

Modelling conventions:
* Python dictionaries are ordered association lists (`List (String × α)`)
  with insert-or-update (`dictInsert`) and delete (`dictRemove`) semantics.
* Raised Python exceptions are modelled with `Except PyError`.
* Python floats carry no arithmetic in this code, so numeric values are
  modelled as `Rat`.
* The YAML encoder/decoder is the lossless black box the specification
  describes, so files are modelled in parsed form (`RowFile`); the `---`
  framing and the `str.strip()` call on load are reflected where they have
  an observable effect (trailing whitespace of the body).
-/

/-- The Python exceptions this code can raise. -/
inductive PyError
  | typeError
  | keyError
  | valueError
  | indexError
  | attributeError
  | representerError
  deriving Repr, DecidableEq

/-- The nine entries of `TextTablePropertyType.typemap`. -/
inductive PType
  | text
  | number
  | datetime
  | date
  | time
  | checkbox
  | select
  | relation
  | multiselect
  deriving Repr, DecidableEq

/-- After `edit_property(p, type=s)` runs `prop.type = kwargs['type']`, the
    property's `type` field holds the raw string instead of a
    `TextTablePropertyType`; later attribute accesses on it raise
    `AttributeError`. -/
inductive PTypeField
  | typed (t : PType)
  | raw (s : String)
  deriving Repr, DecidableEq

/-- Python runtime values that flow through table columns: strings, floats,
    booleans, ints (core type of "select"), lists of row names (core type of
    "relation"/"multiselect"), `datetime.time` values, and `None`. -/
inductive Value
  | vStr (s : String)
  | vNum (q : Rat)
  | vBool (b : Bool)
  | vInt (n : Int)
  | vList (l : List String)
  | vTime (hour minute : Nat)
  | vNone
  deriving Repr, DecidableEq

/-! ### String helpers (char-level models of the Python string methods used) -/

/-- `str.replace(a, b)` for one-character patterns. -/
def replaceChar (a b : Char) (l : List Char) : List Char :=
  l.map fun c => if c = a then b else c

/-- `str.replace(a, "")` for a one-character pattern. -/
def dropAllChar (a : Char) (l : List Char) : List Char :=
  l.filter fun c => c ≠ a

/-- `format_name`: spaces become underscores, dots become hyphens, slashes
    are removed (applied in that order, as in the Python format_map). -/
def format_name (s : String) : String :=
  ⟨dropAllChar '/' (replaceChar '.' '-' (replaceChar ' ' '_' s.data))⟩

/-- `str.lower()` on the ASCII range (the results are only ever compared
    with the ASCII literals "false" and "true"). -/
def pyLowerChar (c : Char) : Char :=
  if 'A' ≤ c ∧ c ≤ 'Z' then Char.ofNat (c.toNat + 32) else c

def pyLower (s : String) : String := ⟨s.data.map pyLowerChar⟩

/-- `str.isnumeric()` restricted to ASCII input: nonempty and all digits. -/
def pyIsNumeric (s : String) : Bool :=
  !s.data.isEmpty && s.data.all (·.isDigit)

/-- Value of a digit string, as produced by Python `float` on an
    all-digit string. -/
def digitsVal (l : List Char) : Nat :=
  l.foldl (fun a c => 10 * a + (c.toNat - 48)) 0

/-- The whitespace characters Python `str.strip` removes (ASCII subset). -/
def pyWs (c : Char) : Bool :=
  c = ' ' || c = '\t' || c = '\n' || c = '\r' || c = '\x0b' || c = '\x0c'

/-- Python `str.rstrip()`. -/
def pyRstrip (s : String) : String :=
  ⟨(s.data.reverse.dropWhile pyWs).reverse⟩

/-- Python `str.strip()`. -/
def pyStrip (s : String) : String :=
  ⟨((s.data.dropWhile pyWs).reverse.dropWhile pyWs).reverse⟩

/-- `str.replace(".md", "")`: remove every (left-to-right, non-overlapping)
    occurrence of `.md`. -/
def removeMd : List Char → List Char
  | '.' :: 'm' :: 'd' :: rest => removeMd rest
  | c :: rest => c :: removeMd rest
  | [] => []

/-- `os.path.splitext(p)[0]`: cut at the last dot, unless every character
    before that dot is itself a dot. -/
def lastDotPos : List Char → Option Nat
  | [] => none
  | c :: cs =>
    match lastDotPos cs with
    | some i => some (i + 1)
    | none => if c = '.' then some 0 else none

def splitextStem (l : List Char) : List Char :=
  match lastDotPos l with
  | none => l
  | some i => if (l.take i).any (· ≠ '.') then l.take i else l

/-! ### The type registry (`TextTablePropertyType`) -/

/-- The key set of `TextTablePropertyType.typemap`. -/
def typemapKeys : List String :=
  ["text", "number", "datetime", "date", "time", "checkbox", "select",
   "relation", "multiselect"]

def parsePType (s : String) : Option PType :=
  if s = "text" then some .text
  else if s = "number" then some .number
  else if s = "datetime" then some .datetime
  else if s = "date" then some .date
  else if s = "time" then some .time
  else if s = "checkbox" then some .checkbox
  else if s = "select" then some .select
  else if s = "relation" then some .relation
  else if s = "multiselect" then some .multiselect
  else none

def typeName : PType → String
  | .text => "text"
  | .number => "number"
  | .datetime => "datetime"
  | .date => "date"
  | .time => "time"
  | .checkbox => "checkbox"
  | .select => "select"
  | .relation => "relation"
  | .multiselect => "multiselect"

/-- "select", "relation" and "multiselect" are stored as `CustomType`
    instances in the typemap. -/
def PType.is_custom : PType → Bool
  | .select | .relation | .multiselect => true
  | _ => false

/-- `TextTablePropertyType.default_value` calls `self.object()`.
    `datetime.datetime()` and `datetime.date()` raise `TypeError` because
    those constructors require arguments; `datetime.time()` is midnight;
    the `CustomType.__call__` of select/relation/multiselect builds the
    zero of the core type (`int()` resp. `list()`). -/
def default_value : PType → Except PyError Value
  | .text => .ok (.vStr "")
  | .number => .ok (.vNum 0)
  | .datetime => .error .typeError
  | .date => .error .typeError
  | .time => .ok (.vTime 0 0)
  | .checkbox => .ok (.vBool false)
  | .select => .ok (.vInt 0)
  | .relation => .ok (.vList [])
  | .multiselect => .ok (.vList [])

/-- `TextTablePropertyType.convert`: `"false"`/`"true"` case-insensitively
    become booleans, all-digit strings become floats, and anything else
    falls through with `converted = None`. -/
def convert (s : String) : Value :=
  if pyLower s = "false" then .vBool false
  else if pyLower s = "true" then .vBool true
  else if pyIsNumeric s then .vNum (digitsVal s.data : Nat)
  else .vNone

/-- `type(value) != prop.type.object` (negated): for the built-in scalar
    types the stored object is the Python class itself; for custom types it
    is a `CustomType` *instance*, which no `type(value)` ever equals, so
    custom-typed properties never match. `datetime.datetime`/`date`
    instances cannot arise in this model (their defaults raise). -/
def typeMatchesB : PType → Value → Bool
  | .text, .vStr _ => true
  | .number, .vNum _ => true
  | .checkbox, .vBool _ => true
  | .time, .vTime _ _ => true
  | _, _ => false

/-- Attribute accesses on a property's `type` field; after a raw-string
    type edit they raise `AttributeError`. -/
def fieldDefault : PTypeField → Except PyError Value
  | .typed t => default_value t
  | .raw _ => .error .attributeError

def fieldConvert : PTypeField → String → Except PyError Value
  | .typed _, s => .ok (convert s)
  | .raw _, _ => .error .attributeError

def fieldIsCustom : PTypeField → Except PyError Bool
  | .typed t => .ok t.is_custom
  | .raw _ => .error .attributeError

def fieldMatches : PTypeField → Value → Except PyError Bool
  | .typed t, v => .ok (typeMatchesB t v)
  | .raw _, _ => .error .attributeError

/-! ### Association-list model of Python dicts -/

def lookupD {α : Type} (k : String) : List (String × α) → Option α
  | [] => none
  | (k', v) :: rest => if k' = k then some v else lookupD k rest

def dictInsert {α : Type} (k : String) (v : α) : List (String × α) → List (String × α)
  | [] => [(k, v)]
  | (k', v') :: rest => if k' = k then (k', v) :: rest else (k', v') :: dictInsert k v rest

def dictRemove {α : Type} (k : String) : List (String × α) → List (String × α)
  | [] => []
  | (k', v') :: rest => if k' = k then rest else (k', v') :: dictRemove k rest

def keysOf {α : Type} (l : List (String × α)) : List String := l.map (·.1)

/-! ### Rows and columns -/

/-- `TextTableCols`: a dict that formats the value stored under `"name"`.
    `edit_property` replaces a row's cols with a plain dict, after which no
    formatting happens; `autoFormat` records which kind the row holds. -/
structure Cols where
  entries : List (String × Value)
  autoFormat : Bool
  deriving Repr, DecidableEq

def Cols.get? (c : Cols) (k : String) : Option Value := lookupD k c.entries

/-- `__setitem__`: formatting the `"name"` value calls `format_name`, which
    raises `AttributeError` (`.replace` missing) on a non-string. -/
def Cols.set (c : Cols) (k : String) (v : Value) : Except PyError Cols :=
  if c.autoFormat && k == "name" then
    match v with
    | .vStr s => .ok ⟨dictInsert k (.vStr (format_name s)) c.entries, c.autoFormat⟩
    | _ => .error .attributeError
  else .ok ⟨dictInsert k v c.entries, c.autoFormat⟩

/-- `TextTableRow`: the `name` constructor argument is ignored by
    `__init__`; `row.name`/`row.content` go through `__getattr__` to the
    cols *unless* `edit_row` has created a shadowing `content` instance
    attribute, recorded here as `contentAttr`. -/
structure Row where
  cols : Cols
  contentAttr : Option String
  deriving Repr, DecidableEq

/-! ### Tables -/

structure Property where
  name : String
  type : PTypeField
  deriving Repr, DecidableEq

structure Table where
  name : String
  props : List Property
  rows : List Row
  deriving Repr, DecidableEq

def protected_properties : List String := ["name", "content"]

/-- `TextTable.__init__`: every table starts with the reserved `name` and
    `content` text properties and no rows. -/
def mkTable (name : String) : Table :=
  ⟨name, [⟨"name", .typed .text⟩, ⟨"content", .typed .text⟩], []⟩

def Table.get_property_names (t : Table) : List String := t.props.map (·.name)

/-- `get_property` indexes `self._properties` with `_get_property_index`,
    which returns `None` when no property matches; `list[None]` raises
    `TypeError`. -/
def Table.get_property (t : Table) (n : String) : Except PyError Property :=
  match t.props.find? (fun p => p.name == n) with
  | some p => .ok p
  | none => .error .typeError

/-- The body of `_update_rows` for one row: queue deletions (cols not in
    the schema) and additions (schema names missing from the cols), delete
    first, then add each missing column at its type's default value. -/
def updateRowCols (t : Table) (c : Cols) : Except PyError Cols := do
  let names := t.get_property_names
  let delQ := (keysOf c.entries).filter (fun k => !(names.contains k))
  let addQ := names.filter (fun k => !((keysOf c.entries).contains k))
  let afterDel : Cols := ⟨delQ.foldl (fun e k => dictRemove k e) c.entries, c.autoFormat⟩
  addQ.foldlM
    (fun (cc : Cols) k => do
      let p ← t.get_property k
      let d ← fieldDefault p.type
      cc.set k d)
    afterDel

def Table._update_rows (t : Table) : Except PyError (List Row) :=
  t.rows.mapM fun r => do
    let c ← updateRowCols t r.cols
    pure { r with cols := c }

/-- `add_property`: reserved names are a no-op returning `False`; an
    unknown type name raises `ValueError` in the `TextTablePropertyType`
    constructor; otherwise append and reconcile the rows. (Custom-type
    structure payloads carry no claim-relevant data and are not modelled.) -/
def Table.add_property (t : Table) (pname ptypeStr : String) : Except PyError (Bool × Table) :=
  if protected_properties.contains pname then .ok (false, t)
  else
    match parsePType ptypeStr with
    | none => .error .valueError
    | some ty => do
      let t' := { t with props := t.props ++ [Property.mk pname (.typed ty)] }
      let rows' ← t'._update_rows
      .ok (true, { t' with rows := rows' })

/-- The per-row loop of `edit_property`: every key equal to the old name is
    replaced by `kwargs['name']` (a `KeyError` when no new name was given),
    and the value written under *every* key is `row.cols[property_name]` —
    the old column's value — exactly as the source reads. The result is a
    plain dict. -/
def renameStep (oldName : String) (newName : Option String)
    (entries : List (String × Value)) (acc : List (String × Value))
    (kv : String × Value) : Except PyError (List (String × Value)) := do
  let k' ← if kv.1 = oldName then
      match newName with
      | some nn => Except.ok nn
      | none => Except.error PyError.keyError
    else Except.ok kv.1
  let v ← match lookupD oldName entries with
    | some v => Except.ok v
    | none => Except.error PyError.keyError
  Except.ok (dictInsert k' v acc)

def renameColsEntries (oldName : String) (newName : Option String)
    (entries : List (String × Value)) : Except PyError (List (String × Value)) :=
  entries.foldlM (renameStep oldName newName entries) []

/-- `edit_property(property_name, name=?, type=?)`: reserved names are a
    no-op returning `False`; the lookup of a missing property raises
    `TypeError` (see `get_property`); the first matching property object is
    mutated in place; a type edit stores the raw string; then the row loop
    runs unconditionally. -/
def Table.edit_property (t : Table) (pname : String) (newName newType : Option String) :
    Except PyError (Bool × Table) :=
  if protected_properties.contains pname then .ok (false, t)
  else do
    let _ ← t.get_property pname
    let props' :=
      match t.props.findIdx? (fun p => p.name == pname) with
      | some i =>
        match t.props[i]? with
        | some p =>
          t.props.set i
            { name := newName.getD p.name,
              type := match newType with
                      | some s => .raw s
                      | none => p.type }
        | none => t.props
      | none => t.props
    let rows' ← t.rows.mapM fun r => do
      let e' ← renameColsEntries pname newName r.cols.entries
      pure { r with cols := (⟨e', false⟩ : Cols) }
    .ok (true, { t with props := props', rows := rows' })

/-- `del_property`: reserved names are a no-op returning `False`; deleting
    by a missing name indexes the list with `None` (`TypeError`). -/
def Table.del_property (t : Table) (pname : String) : Except PyError (Bool × Table) :=
  if protected_properties.contains pname then .ok (false, t)
  else
    match t.props.findIdx? (fun p => p.name == pname) with
    | none => .error .typeError
    | some i => do
      let t' := { t with props := t.props.eraseIdx i }
      let rows' ← t'._update_rows
      .ok (true, { t' with rows := rows' })

/-! ### add_row -/

/-- The argument normalization at the top of `add_row`: positional-only
    calls zip the values with the schema names (an over-long argument list
    indexes past the end: `IndexError`); one positional plus keywords makes
    the positional the name, with keyword entries merged on top. -/
def buildKwargs (t : Table) (args : List Value) (kwargs : List (String × Value)) :
    Except PyError (List (String × Value)) :=
  if args.length > 0 && kwargs.length == 0 then
    args.enum.foldlM
      (fun acc ia =>
        match t.get_property_names[ia.1]? with
        | some k => Except.ok (dictInsert k ia.2 acc)
        | none => Except.error PyError.indexError)
      []
  else if args.length == 1 && kwargs.length > 0 then
    match args[0]? with
    | some v => .ok (kwargs.foldl (fun acc kv => dictInsert kv.1 kv.2 acc) [("name", v)])
    | none => .error .indexError
  else .ok kwargs

/-- The duplicate-name scan of `add_row`: for each existing row, evaluate
    `row['name']` (a `KeyError` if absent) and compare it with
    `format_name(kwargs['name'])` (an `AttributeError` on a non-string
    name); stop at the first hit. -/
def dupStep (nameV : Value) (found : Bool) (r : Row) : Except PyError Bool :=
  if found then pure true
  else
    match r.cols.get? "name" with
    | none => Except.error PyError.keyError
    | some rv => do
      let f ← match nameV with
        | .vStr s => Except.ok (format_name s)
        | _ => Except.error PyError.attributeError
      pure (rv = Value.vStr f)

def dupScan (rows : List Row) (nameV : Value) : Except PyError Bool :=
  rows.foldlM (dupStep nameV) false

/-- One step of the predefine loop of `add_row`:
    `row.cols[prop.name] = prop.type.default_value`. -/
def predefStep (c : Cols) (p : Property) : Except PyError Cols := do
  let d ← fieldDefault p.type
  c.set p.name d

/-- The coercion ladder of the kwargs-overlay loop of `add_row`: an exact
    type match keeps the value; a string goes through `convert`; a
    custom-typed property keeps the value; `None` passes; anything else
    raises `TypeError`. -/
def overlayResult (t : Table) (k : String) (v : Value) : Except PyError Value := do
  let p ← t.get_property k
  let m ← fieldMatches p.type v
  if m then pure v
  else
    match v with
    | .vStr s => fieldConvert p.type s
    | v => do
      let cu ← fieldIsCustom p.type
      if cu then pure v
      else if v = Value.vNone then pure v
      else Except.error PyError.typeError

/-- One step of the kwargs-overlay loop of `add_row`: skip undeclared
    names, else run the coercion ladder and store the result. -/
def overlayStep (t : Table) (c : Cols) (kv : String × Value) : Except PyError Cols := do
  if t.get_property_names.contains kv.1 then do
    let v' ← overlayResult t kv.1 kv.2
    c.set kv.1 v'
  else pure c

/-- The body of `add_row` after argument normalization: require a name,
    reject duplicates with `False`, predefine every column at its default,
    then overlay the provided values with the source's coercion ladder. -/
def addRowCore (t : Table) (kw : List (String × Value)) : Except PyError (Bool × Table) := do
  match lookupD "name" kw with
  | none => .error .valueError
  | some nameV => do
    let dup ← dupScan t.rows nameV
    if dup then .ok (false, t)
    else do
      let c0 ← t.props.foldlM (predefStep) (⟨[], true⟩ : Cols)
      let c1 ← kw.foldlM (overlayStep t) c0
      .ok (true, { t with rows := t.rows ++ [⟨c1, none⟩] })

def Table.add_row (t : Table) (args : List Value) (kwargs : List (String × Value)) :
    Except PyError (Bool × Table) := do
  let kw ← buildKwargs t args kwargs
  addRowCore t kw

/-! ### Row lookup / edit / delete -/

/-- `_get_row_index`: scan the rows, evaluating `row.cols[target]` (a
    `KeyError` if absent) until the value matches; `None` when nothing
    does. -/
def Table._get_row_index (t : Table) (targetProp : String) (targetVal : Value) :
    Except PyError (Option Nat) :=
  t.rows.enum.foldlM
    (fun (res : Option Nat) ir =>
      match res with
      | some _ => pure res
      | none =>
        match ir.2.cols.get? targetProp with
        | none => Except.error PyError.keyError
        | some v => pure (if v = targetVal then some ir.1 else none))
    none

def Table.get_row (t : Table) (v : Value) : Except PyError (Option Row) := do
  match ← t._get_row_index "name" v with
  | none => pure none
  | some i => pure t.rows[i]?

/-- `edit_row`: a missing row raises `IndexError`; a `content` keyword
    strips the value (`AttributeError` on a non-string) and assigns it to a
    shadowing instance attribute, leaving the cols untouched; other
    keywords that name an existing column overwrite it unchecked. -/
def Table.edit_row (t : Table) (rowName : Value) (kwargs : List (String × Value)) :
    Except PyError Table := do
  let idx ← t._get_row_index "name" rowName
  match idx with
  | none => .error .indexError
  | some i =>
    match t.rows[i]? with
    | none => .error .indexError
    | some r => do
      let r' ← kwargs.foldlM
        (fun (r : Row) kv =>
          if kv.1 = "content" then
            match kv.2 with
            | .vStr s => Except.ok { r with contentAttr := some (pyStrip s) }
            | _ => Except.error PyError.attributeError
          else if (keysOf r.cols.entries).contains kv.1 then do
            let c ← r.cols.set kv.1 kv.2
            Except.ok { r with cols := c }
          else Except.ok r)
        r
      .ok { t with rows := t.rows.set i r' }

def Table.delete_row (t : Table) (rowName : Value) : Except PyError (Bool × Table) := do
  match ← t._get_row_index "name" rowName with
  | none => .ok (false, t)
  | some i => .ok (true, { t with rows := t.rows.eraseIdx i })

/-! ### Database -/

structure Db where
  path : String
  tables : List Table
  deriving Repr, DecidableEq

def Db.get_table_names (db : Db) : List String := db.tables.map (·.name)

/-- `get_table`: `None` when the name is absent, else the first table with
    that name (`list.index` finds the first occurrence). -/
def Db.get_table (db : Db) (n : String) : Option Table :=
  db.tables.find? (fun t => t.name == n)

/-- `add_table` appends unconditionally — no duplicate check. -/
def Db.add_table (db : Db) (n : String) : Db :=
  { db with tables := db.tables ++ [mkTable n] }

/-- `delete_table` removes the first table with the given name (the loop
    returns right after the `del`). -/
def Db.delete_table (db : Db) (n : String) : Db :=
  match db.tables.findIdx? (fun t => t.name == n) with
  | some i => { db with tables := db.tables.eraseIdx i }
  | none => db

/-! ### Filesystem model

A row file on disk is `---\n<yaml header>---\n<body>`; since the YAML layer
is the lossless black box of the spec, a file is kept in parsed form. The
root directory holds table directories (the `.properties` directory is kept
in its own field, which realizes the `folder_name == ".properties":
continue` branch of `save`; plain files at the root are inert for both
`save` (`os.path.isdir` filter) and `load` and are not modelled). -/

structure RowFile where
  header : List (String × Value)
  body : String
  deriving Repr, DecidableEq

structure FS where
  rootExists : Bool
  propDirExists : Bool
  propFiles : List (String × List (String × String))
  tableDirs : List (String × List (String × RowFile))
  deriving Repr, DecidableEq

def emptyFS : FS := ⟨false, false, [], []⟩

/-- `yaml.safe_dump` can represent str/float/bool/int/list/None but raises
    `RepresenterError` on a `datetime.time` value. -/
def yamlRepresentable : Value → Bool
  | .vTime _ _ => false
  | _ => true

/-- Python `str(value)` as used by the f-string in `convert_to_markdown`.
    Only the string case is ever claim-relevant (see the round-trip
    hypotheses); the remaining renderings are nominal. -/
def pyStrOf : Value → String
  | .vStr s => s
  | .vBool true => "True"
  | .vBool false => "False"
  | .vInt n => toString n
  | .vNum q => toString q
  | .vNone => "None"
  | .vList l => String.intercalate ", " l
  | .vTime h m => toString h ++ ":" ++ toString m

/-- `convert_to_markdown`: `self.cols.keys() != TextTable.protected_properties`
    compares a `dict_keys` view with a tuple and is therefore always true,
    so every row with nonempty cols takes the YAML branch: copy the cols,
    `del` the protected keys (`KeyError` when absent), dump the rest as the
    header and use `cols['content']` as the body. Empty cols fall back to
    `self.content` (the shadowing attribute, else `KeyError`). -/
def Row.convert_to_markdown (r : Row) : Except PyError RowFile :=
  if r.cols.entries.isEmpty then
    match r.contentAttr with
    | some s => .ok ⟨[], s⟩
    | none => .error .keyError
  else do
    let _ ← match lookupD "name" r.cols.entries with
      | some v => Except.ok v
      | none => Except.error PyError.keyError
    let contentV ← match lookupD "content" r.cols.entries with
      | some v => Except.ok v
      | none => Except.error PyError.keyError
    let dump := dictRemove "content" (dictRemove "name" r.cols.entries)
    if dump.all (fun kv => yamlRepresentable kv.2) then
      .ok ⟨dump, pyStrOf contentV⟩
    else .error .representerError

/-- `resolve_path(row)` ends in `format_name(row.name) + ".md"`, where
    `row.name` goes through `__getattr__` to `cols['name']` (`KeyError`
    when absent, `AttributeError` inside `format_name` on a non-string). -/
def rowFileName (r : Row) : Except PyError String :=
  match r.cols.get? "name" with
  | none => .error .keyError
  | some (.vStr s) => .ok (format_name s ++ ".md")
  | some _ => .error .attributeError

def fsAddDirIfMissing (fs : FS) (d : String) : FS :=
  if (fs.tableDirs.find? (fun e => e.1 == d)).isSome then fs
  else { fs with tableDirs := fs.tableDirs ++ [(d, [])] }

def fsInsertFile (fs : FS) (d fname : String) (rf : RowFile) : FS :=
  { fs with tableDirs :=
      fs.tableDirs.map (fun e => if e.1 = d then (e.1, dictInsert fname rf e.2) else e) }

/-- The first half of `save`: for every directory under the root (the
    `.properties` directory excepted), a directory whose name is not an
    in-memory table name is `rmtree`d — and then execution *falls through*
    into `for row in self.get_table(folder_name)`, which iterates over
    `None` and raises `TypeError`, aborting the save; for a retained table,
    every row file whose `splitext` stem is not among the in-memory row
    names is removed. -/
def staleStep (db : Db) (fs' : FS) (e : String × List (String × RowFile)) :
    Except PyError FS :=
  if !(db.get_table_names.contains e.1) then
    Except.error PyError.typeError
  else
    match db.get_table e.1 with
    | none => Except.error PyError.typeError
    | some t => do
      let rowNames ← t.rows.mapM (fun r =>
        match r.cols.get? "name" with
        | some v => Except.ok v
        | none => Except.error PyError.keyError)
      let files := (lookupD e.1 fs'.tableDirs).getD []
      let files' := files.filter
        (fun f => rowNames.contains (Value.vStr ⟨splitextStem f.1.data⟩))
      let dirs' := fs'.tableDirs.map (fun e2 => if e2.1 = e.1 then (e2.1, files') else e2)
      Except.ok { fs' with tableDirs := dirs' }

def saveStale (db : Db) (fs : FS) : Except PyError FS :=
  fs.tableDirs.foldlM (staleStep db) fs

/-- The schema descriptor `save` writes: property name ↦ type name (for a
    custom type the YAML value is a `{type, structure}` mapping whose
    `type` entry is this same name; the structure payload carries no
    claim-relevant data and is flattened away). A raw-string type raises
    `AttributeError` at `prop.type.is_custom`. -/
def descStep (acc : List (String × String)) (p : Property) :
    Except PyError (List (String × String)) := do
  let tn ← match p.type with
    | .typed ty => Except.ok (typeName ty)
    | .raw _ => Except.error PyError.attributeError
  Except.ok (dictInsert p.name tn acc)

def descriptorOf (t : Table) : Except PyError (List (String × String)) :=
  t.props.foldlM descStep []

def saveRowStep (d : String) (fs : FS) (r : Row) : Except PyError FS := do
  let fn ← rowFileName r
  let rf ← r.convert_to_markdown
  pure (fsInsertFile fs d fn rf)

def saveTableRows (fs : FS) (d : String) (rows : List Row) : Except PyError FS :=
  rows.foldlM (saveRowStep d) fs

/-- `TextDb.save`: ensure the root and `.properties` directories, run the
    destructive reconciliation pass, then for each in-memory table ensure
    its directory, write its descriptor under the *unformatted* table name,
    and write each row's file. A raised exception aborts the call (the
    partially mutated disk state is not observable through this model). -/
def writeTableStep (fs : FS) (t : Table) : Except PyError FS := do
  let d := format_name t.name
  let fs := fsAddDirIfMissing fs d
  let desc ← descriptorOf t
  let fs := { fs with propFiles := dictInsert t.name desc fs.propFiles }
  saveTableRows fs d t.rows

def Db.save (db : Db) (fs : FS) : Except PyError FS := do
  let fs1 : FS := { fs with rootExists := true, propDirExists := true }
  let fs2 ← saveStale db fs1
  db.tables.foldlM writeTableStep fs2

/-! ### Loading -/

/-- `load_properties`: a missing (or empty) descriptor file is a silent
    no-op; otherwise each entry is fed to `add_property` (whose `False`
    result for the reserved names is ignored). -/
def loadPropStep (t : Table) (kv : String × String) : Except PyError Table := do
  let (_, t') ← t.add_property kv.1 kv.2
  pure t'

def Table.load_properties (t : Table) (fs : FS) : Except PyError Table :=
  match lookupD t.name fs.propFiles with
  | none => .ok t
  | some desc => desc.foldlM loadPropStep t

/-- `load_row_file`: the row name is the file name with every `.md`
    removed; the body is everything after the closing `---` of the header
    block — `str.strip()` on the whole file text only affects the trailing
    whitespace, which lies in the body; the values then go through the
    ordinary `add_row` path. -/
def Table.load_row_file (t : Table) (fname : String) (rf : RowFile) :
    Except PyError Table := do
  let rowName : String := ⟨removeMd fname.data⟩
  let values := dictInsert "content" (Value.vStr (pyRstrip rf.body))
    (dictInsert "name" (Value.vStr rowName) rf.header)
  let (_, t') ← t.add_row [] values
  pure t'

def loadRowStep (t : Table) (f : String × RowFile) : Except PyError Table :=
  t.load_row_file f.1 f.2

def loadTableDir (fs : FS) (dirName : String) (files : List (String × RowFile)) :
    Except PyError Table := do
  let t0 := mkTable dirName
  let t1 ← t0.load_properties fs
  files.foldlM loadRowStep t1

/-- `TextDb.load` (run by the constructor): start from a blank table list;
    a missing root yields an empty database; otherwise every non-hidden
    directory under the root becomes a table (`table_name[0]` on an empty
    name would raise `IndexError`). -/
def loadDirStep (fs : FS) (acc : List Table) (e : String × List (String × RowFile)) :
    Except PyError (List Table) :=
  match e.1.data with
  | [] => Except.error PyError.indexError
  | c :: _ =>
    if c = '.' then pure acc
    else do
      let t ← loadTableDir fs e.1 e.2
      pure (acc ++ [t])

def loadDb (path : String) (fs : FS) : Except PyError Db := do
  if fs.rootExists = false then
    .ok ⟨path, []⟩
  else do
    let ts ← fs.tableDirs.foldlM (loadDirStep fs) []
    .ok ⟨path, ts⟩

/-! ### Concrete inputs used by counterexamples and bug evaluations -/

/-- A database holding one table named `a` with `delete_table "a"` applied,
    over a filesystem that still has the `a` directory on disk. -/
def c2Db : Db := Db.delete_table ⟨"p", [mkTable "a"]⟩ "a"

def c2FS : FS := ⟨true, true, [("a", [("name", "text"), ("content", "text")])], [("a", [])]⟩

/-- `tasks` table with a `done:checkbox` property and one row
    `name="a", done=True`, then `edit_property("done", name="finished")`. -/
def c4Setup : Except PyError (Bool × Table) := do
  let (_, t) ← (mkTable "tasks").add_property "done" "checkbox"
  let (_, t) ← t.add_row [] [("name", Value.vStr "a"), ("done", Value.vBool true)]
  t.edit_property "done" (some "finished") none

/-- Add the property `a` twice, add one row, then rename `a` to `b`. -/
def c3Setup : Except PyError (Bool × Table) := do
  let (_, t) ← (mkTable "t").add_property "a" "text"
  let (_, t) ← t.add_property "a" "text"
  let (_, t) ← t.add_row [Value.vStr "r"] []
  t.edit_property "a" (some "b") none

def c3Result : Table :=
  { name := "t",
    props := [⟨"name", .typed .text⟩, ⟨"content", .typed .text⟩,
              ⟨"b", .typed .text⟩, ⟨"a", .typed .text⟩],
    rows := [{ cols := ⟨[("name", .vStr ""), ("content", .vStr ""), ("b", .vStr "")], false⟩,
               contentAttr := none }] }

def c9Db : Db := (Db.add_table (Db.add_table ⟨"p", []⟩ "a") "a")

/-- A database whose single table has a name that is not a fixed point of
    the `format_name` transform. -/
def c1Db : Db := ⟨"p", [mkTable "a.b"]⟩

/-- C2: the claim says `save()` deletes stale table directories and stale
    row files and completes without failing, in particular after an
    in-memory `delete_table` of a table that exists on disk. The code does
    `rmtree` the directory, but then falls through into
    `for row in self.get_table(folder_name)` with `get_table` returning
    `None`, raising `TypeError` — the save aborts instead of completing. -/
theorem C2_save_after_delete_table_crashes :
    c2Db = ⟨"p", []⟩ ∧ c2Db.save c2FS = .error .typeError := by
  exact ⟨rfl, rfl⟩

/-- C4: the claim says `edit_property` renames the column and every other
    column of every row keeps its previous value. In the source the rename
    loop writes `row.cols[property_name]` — the *old* column's value —
    under every key, so after renaming `done` to `finished` the row's
    `name` and `content` columns also hold the old `done` value `True`. -/
theorem C4_rename_clobbers_all_columns :
    c4Setup = Except.ok (true,
      { name := "tasks",
        props := [⟨"name", .typed .text⟩, ⟨"content", .typed .text⟩,
                  ⟨"finished", .typed .checkbox⟩],
        rows := [{ cols := ⟨[("name", .vBool true), ("content", .vBool true),
                             ("finished", .vBool true)], false⟩,
                   contentAttr := none }] }) := by
  rfl

/-- C8: the claim says both lookup operations yield an empty result
    without failing. `get_row` does (`.ok none`), and `edit_row` on a
    missing row raises `IndexError` as claimed, but `get_property` on a
    missing name indexes `self._properties[None]` and raises `TypeError`
    instead of returning an empty result. -/
theorem C8_lookup_vs_edit_on_missing_names :
    (mkTable "t").get_property "ghost" = .error .typeError ∧
    (mkTable "t").get_row (Value.vStr "ghost") = .ok none ∧
    (mkTable "t").edit_row (Value.vStr "ghost") [] = .error .indexError := by
  exact ⟨rfl, rfl, rfl⟩

/-- C5 counterexample: the claim says the coercion otherwise returns the
    input string unchanged; `convert` actually falls through to `None`,
    and a decimal like "3.5" is not `isnumeric`, so it is not mapped to a
    float either. -/
theorem C5_convert_counterexample :
    convert "hello" = Value.vNone ∧ Value.vNone ≠ Value.vStr "hello" ∧
    convert "3.5" = Value.vNone := by
  exact ⟨rfl, by decide, rfl⟩

/-- C5 amended: `convert` maps "true"/"false" case-insensitively to
    booleans, maps `isnumeric` digit strings to floats of their decimal
    value, and otherwise returns `None` (not the input string). -/
theorem C5_convert_amended (s : String) :
    (pyLower s = "false" → convert s = Value.vBool false) ∧
    (pyLower s ≠ "false" → pyLower s = "true" → convert s = Value.vBool true) ∧
    (pyLower s ≠ "false" → pyLower s ≠ "true" → pyIsNumeric s = true →
      convert s = Value.vNum (digitsVal s.data : Nat)) ∧
    (pyLower s ≠ "false" → pyLower s ≠ "true" → pyIsNumeric s = false →
      convert s = Value.vNone) := by
  refine ⟨?_, ?_, ?_, ?_⟩
  · intro h; simp [convert, h]
  · intro h1 h2; simp [convert, h1, h2]
  · intro h1 h2 h3; simp [convert, h1, h2, h3]
  · intro h1 h2 h3; simp [convert, h1, h2, h3]

/-- Witness for C5 amended, at "no" and "7". -/
theorem C5_convert_amended_witness :
    convert "no" = Value.vNone ∧ convert "7" = Value.vNum (digitsVal "7".data : Nat) := by
  exact ⟨(C5_convert_amended "no").2.2.2 (by decide) (by decide) (by decide),
         (C5_convert_amended "7").2.2.1 (by decide) (by decide) (by decide)⟩

/-- C6 counterexample: "datetime" and "date" are registered type names,
    but their default constructors require arguments, so `default_value`
    raises `TypeError` instead of returning a zero value. -/
theorem C6_datetime_default_raises :
    "datetime" ∈ typemapKeys ∧ parsePType "datetime" = some PType.datetime ∧
    default_value PType.datetime = .error .typeError ∧
    "date" ∈ typemapKeys ∧ default_value PType.date = .error .typeError := by
  exact ⟨by decide, rfl, rfl, by decide, rfl⟩

/-- C9 counterexample: `add_table` performs no duplicate check, so adding
    the table name "a" twice leaves two tables with the same name. -/
theorem C9_add_table_allows_duplicates :
    c9Db.get_table_names = ["a", "a"] ∧ ¬ c9Db.get_table_names.Nodup := by
  exact ⟨rfl, by decide⟩

/-- C1 counterexample: a table named "a.b" (not a fixed point of
    `format_name`) is saved under the directory name "a-b", so the reloaded
    database has table name "a-b" ≠ "a.b" (and its schema descriptor,
    written under the unformatted name, is not even found on reload). -/
theorem C1_counterexample :
    (c1Db.save emptyFS >>= fun fs => loadDb c1Db.path fs).map Db.get_table_names
        = .ok ["a-b"] ∧
    c1Db.get_table_names = ["a.b"] := by
  exact ⟨rfl, rfl⟩

/-! ### Lemmas about the dict model -/

theorem lookupD_dictInsert_self {α : Type} (k : String) (v : α) (l : List (String × α)) :
    lookupD k (dictInsert k v l) = some v := by
  induction l with
  | nil => simp [dictInsert, lookupD]
  | cons hd tl ih =>
    obtain ⟨k0, v0⟩ := hd
    by_cases h0 : k0 = k
    · simp [dictInsert, h0, lookupD]
    · simp [dictInsert, h0, lookupD, ih]

theorem lookupD_dictInsert_ne {α : Type} {k' k : String} (h : k' ≠ k) (v : α)
    (l : List (String × α)) : lookupD k' (dictInsert k v l) = lookupD k' l := by
  induction l with
  | nil => simp [dictInsert, lookupD, Ne.symm h]
  | cons hd tl ih =>
    obtain ⟨k0, v0⟩ := hd
    by_cases h0 : k0 = k
    · subst h0
      simp [dictInsert, lookupD, Ne.symm h]
    · simp [dictInsert, h0, lookupD, ih]

theorem mem_keysOf_dictInsert {α : Type} (k' k : String) (v : α) (l : List (String × α)) :
    k' ∈ keysOf (dictInsert k v l) ↔ k' = k ∨ k' ∈ keysOf l := by
  induction l with
  | nil => simp [dictInsert, keysOf]
  | cons hd tl ih =>
    obtain ⟨k0, v0⟩ := hd
    by_cases h0 : k0 = k
    · subst h0
      simp only [dictInsert, eq_self_iff_true, if_true, keysOf, List.map_cons,
        List.mem_cons]
      tauto
    · simp only [dictInsert, if_neg h0, keysOf, List.map_cons, List.mem_cons]
      simp only [keysOf] at ih
      rw [ih]
      tauto

theorem dictInsert_of_not_mem {α : Type} (k : String) (v : α) (l : List (String × α)) :
    k ∉ keysOf l → dictInsert k v l = l ++ [(k, v)] := by
  induction l with
  | nil => intro _; simp [dictInsert]
  | cons hd tl ih =>
    obtain ⟨k0, v0⟩ := hd
    intro h
    simp only [keysOf, List.map_cons, List.mem_cons, not_or] at h
    simp [dictInsert, Ne.symm h.1, ih (by simpa [keysOf] using h.2)]

theorem lookupD_eq_none_iff {α : Type} (k : String) (l : List (String × α)) :
    lookupD k l = none ↔ k ∉ keysOf l := by
  induction l with
  | nil => simp [lookupD, keysOf]
  | cons hd tl ih =>
    obtain ⟨k0, v0⟩ := hd
    by_cases h0 : k0 = k
    · subst h0
      simp [lookupD, keysOf]
    · simp only [lookupD, if_neg h0, keysOf, List.map_cons, List.mem_cons, not_or]
      simp only [keysOf] at ih
      rw [ih]
      constructor
      · intro hh
        exact ⟨Ne.symm h0, hh⟩
      · intro hh
        exact hh.2

theorem lookupD_append_of_not_mem {α : Type} {k : String} (l₁ l₂ : List (String × α)) :
    k ∉ keysOf l₁ → lookupD k (l₁ ++ l₂) = lookupD k l₂ := by
  induction l₁ with
  | nil => intro _; simp
  | cons hd tl ih =>
    obtain ⟨k0, v0⟩ := hd
    intro h
    simp only [keysOf, List.map_cons, List.mem_cons, not_or] at h
    simp only [List.cons_append, lookupD, if_neg (fun hh : k0 = k => h.1 hh.symm)]
    exact ih (by simpa [keysOf] using h.2)

theorem lookupD_append_of_mem {α : Type} {k : String} (l₁ l₂ : List (String × α)) :
    k ∈ keysOf l₁ → lookupD k (l₁ ++ l₂) = lookupD k l₁ := by
  induction l₁ with
  | nil => intro h; simp [keysOf] at h
  | cons hd tl ih =>
    obtain ⟨k0, v0⟩ := hd
    intro h
    by_cases h0 : k0 = k
    · simp [lookupD, h0]
    · simp only [keysOf, List.map_cons, List.mem_cons] at h
      rcases h with h | h
      · exact absurd h.symm h0
      · simp only [List.cons_append, lookupD, if_neg h0]
        exact ih (by simpa [keysOf] using h)

theorem keysOf_dictRemove {α : Type} (k : String) (l : List (String × α)) :
    keysOf (dictRemove k l) = (keysOf l).erase k := by
  induction l with
  | nil => simp [dictRemove, keysOf]
  | cons hd tl ih =>
    obtain ⟨k0, v0⟩ := hd
    simp only [keysOf] at ih
    by_cases h0 : k0 = k
    · subst h0
      simp [dictRemove, keysOf, List.erase_cons]
    · have hbeq : (k0 == k) = false := by simp [h0]
      simp [dictRemove, h0, keysOf, List.erase_cons, hbeq, ih]

theorem mem_of_mem_dictRemove {α : Type} {kv : String × α} {k : String}
    (l : List (String × α)) : kv ∈ dictRemove k l → kv ∈ l := by
  induction l with
  | nil => intro h; simp [dictRemove] at h
  | cons hd tl ih =>
    obtain ⟨k0, v0⟩ := hd
    by_cases h0 : k0 = k
    · intro h
      simp only [dictRemove, if_pos h0] at h
      exact List.mem_cons_of_mem _ h
    · intro h
      simp only [dictRemove, if_neg h0, List.mem_cons] at h
      rcases h with h | h
      · simp [h]
      · exact List.mem_cons_of_mem _ (ih h)

theorem lookupD_dictRemove_ne {α : Type} {k' k : String} (h : k' ≠ k)
    (l : List (String × α)) : lookupD k' (dictRemove k l) = lookupD k' l := by
  induction l with
  | nil => simp [dictRemove]
  | cons hd tl ih =>
    obtain ⟨k0, v0⟩ := hd
    by_cases h0 : k0 = k
    · subst h0
      simp [dictRemove, lookupD, Ne.symm h]
    · simp [dictRemove, h0, lookupD, ih]

/-! ### Except plumbing -/

theorem except_bind_ok {α β : Type} (a : α) (f : α → Except PyError β) :
    (Except.ok a >>= f) = f a := rfl

theorem except_bind_error {α β : Type} (e : PyError) (f : α → Except PyError β) :
    ((Except.error e : Except PyError α) >>= f) = Except.error e := rfl

theorem except_bind_ok_iff {α β : Type} {x : Except PyError α} {f : α → Except PyError β}
    {b : β} : (x >>= f) = Except.ok b ↔ ∃ a, x = Except.ok a ∧ f a = Except.ok b := by
  cases x with
  | ok a =>
    rw [except_bind_ok]
    constructor
    · intro h
      exact ⟨a, rfl, h⟩
    · rintro ⟨a', ha, hf⟩
      injection ha with ha
      subst ha
      exact hf
  | error e =>
    rw [except_bind_error]
    constructor
    · intro h
      injection h
    · rintro ⟨a', ha, _⟩
      injection ha

theorem mapM_ok_forall {α β : Type} {f : α → Except PyError β}
    (Q : β → Prop) :
    ∀ {l : List α} {l' : List β}, l.mapM f = Except.ok l' →
      (∀ x ∈ l, ∀ y, f x = Except.ok y → Q y) → ∀ y ∈ l', Q y := by
  intro l
  induction l with
  | nil =>
    intro l' h _
    simp only [List.mapM_nil] at h
    injection h with h
    subst h
    intro y hy
    simp at hy
  | cons a l ih =>
    intro l' h hf
    simp only [List.mapM_cons] at h
    rw [except_bind_ok_iff] at h
    obtain ⟨b, hb, h⟩ := h
    rw [except_bind_ok_iff] at h
    obtain ⟨bs, hbs, h⟩ := h
    injection h with h
    subst h
    intro y hy
    rcases List.mem_cons.1 hy with hy | hy
    · subst hy
      exact hf a (List.mem_cons_self a l) y hb
    · exact ih hbs (fun x hx => hf x (List.mem_cons_of_mem _ hx)) y hy

/-! ### Structural lemmas about column updates -/

theorem Cols_set_ok_spec {c c' : Cols} {k : String} {v : Value} (h : c.set k v = .ok c') :
    ∃ w : Value, c'.entries = dictInsert k w c.entries ∧ c'.autoFormat = c.autoFormat := by
  by_cases hc : (c.autoFormat && k == "name") = true
  · cases v with
    | vStr s =>
      simp only [Cols.set, hc, if_true] at h
      injection h with h
      exact ⟨Value.vStr (format_name s), by rw [← h], by rw [← h]⟩
    | vNum q => simp [Cols.set, hc] at h
    | vBool b => simp [Cols.set, hc] at h
    | vInt n => simp [Cols.set, hc] at h
    | vList l => simp [Cols.set, hc] at h
    | vTime a b => simp [Cols.set, hc] at h
    | vNone => simp [Cols.set, hc] at h
  · simp only [Cols.set, if_neg hc] at h
    injection h with h
    exact ⟨v, by rw [← h], by rw [← h]⟩

theorem Cols_set_ok_keys {c c' : Cols} {k : String} {v : Value} (h : c.set k v = .ok c') :
    c'.autoFormat = c.autoFormat ∧
    ∀ k', (k' ∈ keysOf c'.entries ↔ k' = k ∨ k' ∈ keysOf c.entries) := by
  obtain ⟨w, he, ha⟩ := Cols_set_ok_spec h
  refine ⟨ha, fun k' => ?_⟩
  rw [he]
  exact mem_keysOf_dictInsert k' k w c.entries


theorem contains_iff_mem {l : List String} {k : String} : l.contains k = true ↔ k ∈ l :=
  List.elem_iff

theorem contains_eq_false_iff {l : List String} {k : String} :
    l.contains k = false ↔ k ∉ l := by
  rw [← Bool.not_eq_true]
  exact not_congr contains_iff_mem

/-- The add-queue fold of `_update_rows` only ever extends the key set by
    the queued names. -/
theorem foldAddQ_ok_keys (t : Table) (Q : List String) :
    ∀ (c c' : Cols), (Q.foldlM (fun cc k => do
        let p ← t.get_property k
        let d ← fieldDefault p.type
        cc.set k d) c) = .ok c' →
      ∀ k', (k' ∈ keysOf c'.entries ↔ k' ∈ keysOf c.entries ∨ k' ∈ Q) := by
  induction Q with
  | nil =>
    intro c c' h k'
    simp only [List.foldlM_nil] at h
    injection h with h
    subst h
    simp
  | cons q Q ih =>
    intro c c' h k'
    simp only [List.foldlM_cons] at h
    rw [except_bind_ok_iff] at h
    obtain ⟨c₂, hc₂, h⟩ := h
    rw [except_bind_ok_iff] at hc₂
    obtain ⟨p, hp, hc₂⟩ := hc₂
    rw [except_bind_ok_iff] at hc₂
    obtain ⟨d, hd, hc₂⟩ := hc₂
    have hkeys := (Cols_set_ok_keys hc₂).2
    rw [ih c₂ c' h k', hkeys k']
    simp only [List.mem_cons]
    tauto

theorem keysOf_foldl_dictRemove {α : Type} (Q : List String) :
    ∀ l : List (String × α),
      keysOf (Q.foldl (fun e k => dictRemove k e) l)
        = Q.foldl (fun ks k => ks.erase k) (keysOf l) := by
  induction Q with
  | nil => intro l; rfl
  | cons q Q ih =>
    intro l
    simp only [List.foldl_cons]
    rw [ih, keysOf_dictRemove]

theorem mem_foldl_erase (Q : List String) :
    ∀ (ks : List String), ks.Nodup → ∀ k : String,
      (k ∈ Q.foldl (fun ks k => ks.erase k) ks ↔ k ∈ ks ∧ k ∉ Q) := by
  induction Q with
  | nil => intro ks _ k; simp
  | cons q Q ih =>
    intro ks hnd k
    simp only [List.foldl_cons, List.mem_cons]
    rw [ih (ks.erase q) (hnd.erase q) k]
    rw [List.Nodup.mem_erase_iff hnd]
    tauto

theorem mem_keysOf_foldl_dictInsert {α β : Type} (F : β → String) (W : β → α)
    (e : List β) :
    ∀ (acc : List (String × α)) (k : String),
      (k ∈ keysOf (e.foldl (fun a x => dictInsert (F x) (W x) a) acc) ↔
        k ∈ keysOf acc ∨ ∃ x ∈ e, F x = k) := by
  induction e with
  | nil => intro acc k; simp
  | cons x e ih =>
    intro acc k
    simp only [List.foldl_cons]
    rw [ih]
    rw [mem_keysOf_dictInsert]
    simp only [List.mem_cons]
    constructor
    · rintro ((h | h) | h)
      · exact Or.inr ⟨x, Or.inl rfl, h.symm⟩
      · exact Or.inl h
      · obtain ⟨y, hy, hf⟩ := h
        exact Or.inr ⟨y, Or.inr hy, hf⟩
    · rintro (h | ⟨y, hy, hf⟩)
      · exact Or.inl (Or.inr h)
      · rcases hy with hy | hy
        · subst hy
          exact Or.inl (Or.inl hf.symm)
        · exact Or.inr ⟨y, hy, hf⟩

/-- After a successful `_update_rows` pass over one row, the column keys
    are exactly the schema names. -/
theorem updateRowCols_ok_keys {t : Table} {c c' : Cols}
    (hnd : (keysOf c.entries).Nodup)
    (h : updateRowCols t c = .ok c') :
    ∀ k, (k ∈ keysOf c'.entries ↔ k ∈ t.get_property_names) := by
  intro k
  simp only [updateRowCols] at h
  rw [foldAddQ_ok_keys t _ _ _ h k]
  rw [keysOf_foldl_dictRemove, mem_foldl_erase _ _ hnd k]
  rw [List.mem_filter, List.mem_filter]
  simp only [Bool.not_eq_true', contains_eq_false_iff]
  tauto

theorem findIdx?_spec {α : Type} {p : α → Bool} {l : List α} {i : Nat}
    (h : l.findIdx? p = some i) : ∃ a, l[i]? = some a ∧ p a = true := by
  rw [List.findIdx?_eq_some_iff_getElem] at h
  obtain ⟨hlen, hp, _⟩ := h
  exact ⟨l[i], by simp [List.getElem?_eq_getElem hlen], hp⟩

/-! ### Behaviour of the `edit_property` rename loop -/

theorem renameStep_lookup_none {oldN : String} {newName : Option String}
    {entries : List (String × Value)} (hl : lookupD oldN entries = none)
    (acc : List (String × Value)) (kv : String × Value) :
    renameStep oldN newName entries acc kv = .error PyError.keyError := by
  unfold renameStep
  by_cases h : kv.1 = oldN
  · cases newName with
    | some nn => simp [h, hl, except_bind_ok, except_bind_error]
    | none => simp [h, except_bind_error]
  · simp [h, hl, except_bind_ok, except_bind_error]

theorem renameStep_ok {oldN nn : String} {v₀ : Value} {entries : List (String × Value)}
    (hl : lookupD oldN entries = some v₀) (acc : List (String × Value))
    (kv : String × Value) :
    renameStep oldN (some nn) entries acc kv =
      .ok (dictInsert (if kv.1 = oldN then nn else kv.1) v₀ acc) := by
  unfold renameStep
  by_cases h : kv.1 = oldN <;> simp [h, hl, except_bind_ok]

theorem renameStep_none_hit {oldN : String} {entries : List (String × Value)}
    {kv : String × Value} (h : kv.1 = oldN) (acc : List (String × Value)) :
    renameStep oldN none entries acc kv = .error PyError.keyError := by
  unfold renameStep
  simp [h, except_bind_error]

theorem renameFold_ok {oldN nn : String} {v₀ : Value} {entries : List (String × Value)}
    (hl : lookupD oldN entries = some v₀) :
    ∀ (e acc : List (String × Value)),
      e.foldlM (renameStep oldN (some nn) entries) acc =
        .ok (e.foldl (fun acc kv =>
          dictInsert (if kv.1 = oldN then nn else kv.1) v₀ acc) acc) := by
  intro e
  induction e with
  | nil => intro acc; rfl
  | cons kv e ih =>
    intro acc
    simp only [List.foldlM_cons, List.foldl_cons]
    rw [renameStep_ok hl, except_bind_ok]
    exact ih _

theorem renameFold_err_none {oldN : String} {entries : List (String × Value)} :
    ∀ (e acc : List (String × Value)), (∃ kv ∈ e, kv.1 = oldN) →
      ∀ e', e.foldlM (renameStep oldN none entries) acc ≠ .ok e' := by
  intro e
  induction e with
  | nil => intro acc h e'; simp at h
  | cons kv e ih =>
    intro acc h e' hok
    simp only [List.foldlM_cons] at hok
    by_cases hh : kv.1 = oldN
    · rw [renameStep_none_hit hh, except_bind_error] at hok
      injection hok
    · rcases h with ⟨kv', hkv', h1⟩
      rcases List.mem_cons.1 hkv' with he | he
      · subst he
        exact hh h1
      · cases hstep : renameStep oldN none entries acc kv with
        | error err =>
          rw [hstep, except_bind_error] at hok
          injection hok
        | ok acc₂ =>
          rw [hstep, except_bind_ok] at hok
          exact ih acc₂ ⟨kv', he, h1⟩ e' hok

theorem renameFold_err_lookup_none {oldN : String} {newName : Option String}
    {entries : List (String × Value)} (hl : lookupD oldN entries = none)
    (kv : String × Value) (e acc e' : List (String × Value)) :
    ((kv :: e).foldlM (renameStep oldN newName entries) acc) ≠ .ok e' := by
  intro hok
  simp only [List.foldlM_cons] at hok
  rw [renameStep_lookup_none hl, except_bind_error] at hok
  injection hok

/-- Dichotomy for a successful run of the rename loop: either the row had
    no columns at all, or a new name was supplied, the renamed column
    existed, and every output entry holds that old column's value. -/
theorem renameColsEntries_ok_spec {oldN : String} {newName : Option String}
    {e e' : List (String × Value)} (h : renameColsEntries oldN newName e = Except.ok e') :
    (e = [] ∧ e' = []) ∨
    ∃ nn v₀, newName = some nn ∧ lookupD oldN e = some v₀ ∧
      e' = e.foldl (fun acc kv =>
        dictInsert (if kv.1 = oldN then nn else kv.1) v₀ acc) [] := by
  cases e with
  | nil =>
    left
    refine ⟨rfl, ?_⟩
    unfold renameColsEntries at h
    simp only [List.foldlM_nil] at h
    injection h with h
    exact h.symm
  | cons kv rest =>
    right
    unfold renameColsEntries at h
    cases hl : lookupD oldN (kv :: rest) with
    | none => exact absurd h (renameFold_err_lookup_none hl kv rest [] e')
    | some v₀ =>
      cases newName with
      | none =>
        have hmemk : oldN ∈ keysOf (kv :: rest) := by
          by_contra hn
          rw [← lookupD_eq_none_iff] at hn
          rw [hl] at hn
          injection hn
        have hmem : ∃ kv' ∈ (kv :: rest), kv'.1 = oldN := by
          have h2 : oldN ∈ (kv :: rest).map (fun x => x.1) := hmemk
          obtain ⟨x, hx, hx1⟩ := List.mem_map.1 h2
          exact ⟨x, hx, hx1⟩
        exact absurd h (renameFold_err_none _ _ hmem e')
      | some nn =>
        refine ⟨nn, v₀, rfl, rfl, ?_⟩
        rw [renameFold_ok hl] at h
        injection h with h
        exact h.symm

/-- Membership in the names of `props.set i pnew` when the names are
    duplicate-free and `props[i]` is `pold`. -/
theorem mem_map_name_set {props : List Property} :
    ∀ {i : Nat} {pold pnew : Property}, props[i]? = some pold →
      (props.map (fun p => p.name)).Nodup →
      ∀ k, (k ∈ (props.set i pnew).map (fun p => p.name) ↔
        k = pnew.name ∨ (k ∈ props.map (fun p => p.name) ∧ k ≠ pold.name)) := by
  induction props with
  | nil => intro i pold pnew h; simp at h
  | cons hd tl ih =>
    intro i pold pnew hget hnd k
    cases i with
    | zero =>
      simp only [List.getElem?_cons_zero] at hget
      injection hget with hget
      subst hget
      simp only [List.set_cons_zero, List.map_cons, List.mem_cons]
      simp only [List.map_cons, List.nodup_cons] at hnd
      constructor
      · rintro (h | h)
        · exact Or.inl h
        · refine Or.inr ⟨Or.inr h, ?_⟩
          intro hk
          rw [hk] at h
          exact hnd.1 h
      · rintro (h | ⟨hmem, hne⟩)
        · exact Or.inl h
        · rcases hmem with hmem | hmem
          · exact absurd hmem hne
          · exact Or.inr hmem
    | succ i =>
      simp only [List.getElem?_cons_succ] at hget
      simp only [List.set_cons_succ, List.map_cons, List.mem_cons]
      simp only [List.map_cons, List.nodup_cons] at hnd
      rw [ih hget hnd.2 k]
      have hpold_mem : pold.name ∈ tl.map (fun p => p.name) :=
        List.mem_map_of_mem _ (List.getElem?_mem hget)
      have hne : hd.name ≠ pold.name := fun hh => hnd.1 (hh ▸ hpold_mem)
      constructor
      · rintro (h | h)
        · refine Or.inr ⟨Or.inl h, ?_⟩
          rw [h]
          exact hne
        · rcases h with h | ⟨hm, hn⟩
          · exact Or.inl h
          · exact Or.inr ⟨Or.inr hm, hn⟩
      · rintro (h | ⟨hm, hn⟩)
        · exact Or.inr (Or.inl h)
        · rcases hm with hm | hm
          · exact Or.inl hm
          · exact Or.inr (Or.inr ⟨hm, hn⟩)

theorem except_pure_ok_iff {α : Type} {a b : α} :
    (pure a : Except PyError α) = Except.ok b ↔ a = b := by
  constructor
  · intro h
    injection h with h
  · intro h
    rw [h]
    rfl

/-- The row/schema agreement invariant of the specification: every row's
    column-name set equals the table's property-name set. -/
def ColsMatchSchema (t : Table) : Prop :=
  ∀ r ∈ t.rows, ∀ k, (k ∈ keysOf r.cols.entries ↔ k ∈ t.get_property_names)

/-- One schema-mutating call of the claim. -/
inductive SchemaOp
  | addProp (pname ptypeStr : String)
  | delProp (pname : String)
  | editProp (pname : String) (newName newType : Option String)

def applySchemaOp (t : Table) : SchemaOp → Except PyError (Bool × Table)
  | .addProp n ty => t.add_property n ty
  | .delProp n => t.del_property n
  | .editProp n nn nt => t.edit_property n nn nt

theorem update_rows_inv {t₂ : Table} {rows' : List Row}
    (hkeys : ∀ r ∈ t₂.rows, (keysOf r.cols.entries).Nodup)
    (h : t₂._update_rows = .ok rows') :
    ∀ r ∈ rows', ∀ k, (k ∈ keysOf r.cols.entries ↔ k ∈ t₂.get_property_names) := by
  unfold Table._update_rows at h
  intro r hr
  refine mapM_ok_forall
    (fun r' : Row => ∀ k, (k ∈ keysOf r'.cols.entries ↔ k ∈ t₂.get_property_names))
    h ?_ r hr
  intro x hx y hy
  rw [except_bind_ok_iff] at hy
  obtain ⟨c, hc, hy⟩ := hy
  rw [except_pure_ok_iff] at hy
  subst hy
  intro k
  exact updateRowCols_ok_keys (hkeys x hx) hc k

theorem rename_keys_iff {e : List (String × Value)} {names : List String}
    (hiff : ∀ k, (k ∈ keysOf e ↔ k ∈ names)) (pname nn : String)
    (hpmem : pname ∈ names) (k : String) :
    (∃ kv ∈ e, (if kv.1 = pname then nn else kv.1) = k) ↔
      k = nn ∨ (k ∈ names ∧ k ≠ pname) := by
  constructor
  · rintro ⟨kv, hkv, hr⟩
    by_cases hh : kv.1 = pname
    · rw [if_pos hh] at hr
      exact Or.inl hr.symm
    · rw [if_neg hh] at hr
      subst hr
      exact Or.inr ⟨(hiff kv.1).1 (List.mem_map_of_mem _ hkv), hh⟩
  · rintro (h | ⟨hm, hn⟩)
    · have hp : pname ∈ keysOf e := (hiff pname).2 hpmem
      obtain ⟨kv, hkv, h1⟩ := List.mem_map.1 hp
      exact ⟨kv, hkv, by rw [if_pos h1, h]⟩
    · have hk : k ∈ keysOf e := (hiff k).2 hm
      obtain ⟨kv, hkv, h1⟩ := List.mem_map.1 hk
      refine ⟨kv, hkv, ?_⟩
      rw [h1, if_neg hn]

/-- C3 amended: on a table whose property names are duplicate-free and whose
    rows have duplicate-free column sets agreeing with the schema, every
    `add_property`/`del_property`/`edit_property` call that completes
    (returns instead of raising) leaves every row's column-name set equal
    to the table's property-name set. (As stated the claim fails: adding
    the same property name twice and then renaming it breaks the
    invariant — see the counterexample.) -/
theorem C3_schema_ops_preserve_column_sets (t : Table) (op : SchemaOp) (b : Bool)
    (t' : Table)
    (hnd : t.get_property_names.Nodup)
    (hkeys : ∀ r ∈ t.rows, (keysOf r.cols.entries).Nodup)
    (hinv : ColsMatchSchema t)
    (h : applySchemaOp t op = .ok (b, t')) :
    ColsMatchSchema t' := by
  cases op with
  | addProp n ty =>
    simp only [applySchemaOp] at h
    by_cases hprot : protected_properties.contains n = true
    · simp only [Table.add_property, hprot, if_true] at h
      injection h with h
      injection h with h1 h2
      subst h2
      exact hinv
    · simp only [Table.add_property, hprot, Bool.false_eq_true, if_false] at h
      cases hty : parsePType ty with
      | none =>
        rw [hty] at h
        injection h
      | some ty' =>
        rw [hty] at h
        rw [except_bind_ok_iff] at h
        obtain ⟨rows', hrows, h⟩ := h
        injection h with h
        injection h with h1 h2
        subst h2
        exact @update_rows_inv
          { t with props := t.props ++ [Property.mk n (.typed ty')] } _ hkeys hrows
  | delProp n =>
    simp only [applySchemaOp] at h
    by_cases hprot : protected_properties.contains n = true
    · simp only [Table.del_property, hprot, if_true] at h
      injection h with h
      injection h with h1 h2
      subst h2
      exact hinv
    · simp only [Table.del_property, hprot, Bool.false_eq_true, if_false] at h
      cases hidx : t.props.findIdx? (fun p => p.name == n) with
      | none =>
        rw [hidx] at h
        injection h
      | some i =>
        rw [hidx] at h
        rw [except_bind_ok_iff] at h
        obtain ⟨rows', hrows, h⟩ := h
        injection h with h
        injection h with h1 h2
        subst h2
        exact @update_rows_inv { t with props := t.props.eraseIdx i } _ hkeys hrows
  | editProp pname newName newType =>
    simp only [applySchemaOp] at h
    by_cases hprot : protected_properties.contains pname = true
    · simp only [Table.edit_property, hprot, if_true] at h
      injection h with h
      injection h with h1 h2
      subst h2
      exact hinv
    · simp only [Table.edit_property, hprot, Bool.false_eq_true, if_false] at h
      rw [except_bind_ok_iff] at h
      obtain ⟨p, hp, h⟩ := h
      rw [except_bind_ok_iff] at h
      obtain ⟨rows', hrows, h⟩ := h
      injection h with h
      injection h with h1 h2
      subst h2
      have hpmem : pname ∈ t.get_property_names := by
        unfold Table.get_property at hp
        cases hf : t.props.find? (fun q => q.name == pname) with
        | none =>
          rw [hf] at hp
          injection hp
        | some q =>
          have hq := List.find?_some hf
          have hqm := List.mem_of_find?_eq_some hf
          rw [beq_iff_eq] at hq
          exact hq ▸ List.mem_map_of_mem _ hqm
      cases hidx : t.props.findIdx? (fun q => q.name == pname) with
      | none =>
        rw [List.findIdx?_eq_none_iff] at hidx
        obtain ⟨q, hqm, hqname⟩ := List.mem_map.1 hpmem
        have hfalse := hidx q hqm
        rw [hqname] at hfalse
        simp at hfalse
      | some i =>
        obtain ⟨a, hai, hpa⟩ := findIdx?_spec hidx
        rw [beq_iff_eq] at hpa
        intro r hr
        simp only [hidx, hai] at hr ⊢
        refine mapM_ok_forall
          (fun r' : Row => ∀ k, (k ∈ keysOf r'.cols.entries ↔
            k ∈ (t.props.set i
              { name := newName.getD a.name,
                type := match newType with
                        | some s => PTypeField.raw s
                        | none => a.type }).map (fun q => q.name)))
          hrows ?_ r hr
        intro x hx y hy
        rw [except_bind_ok_iff] at hy
        obtain ⟨e', he', hy⟩ := hy
        rw [except_pure_ok_iff] at hy
        subst hy
        intro k
        rcases renameColsEntries_ok_spec he' with ⟨hnil, hnil'⟩ | ⟨nn, v₀, hnn, hlk, he⟩
        · exfalso
          have := (hinv x hx pname).2 hpmem
          rw [hnil] at this
          simp [keysOf] at this
        · subst hnn
          subst he
          have hkeys' : (k ∈ keysOf (x.cols.entries.foldl (fun acc kv =>
                dictInsert (if kv.1 = pname then nn else kv.1) v₀ acc) []) ↔
              k ∈ keysOf ([] : List (String × Value)) ∨
                ∃ kv ∈ x.cols.entries, (if kv.1 = pname then nn else kv.1) = k) :=
            mem_keysOf_foldl_dictInsert _ _ x.cols.entries [] k
          rw [hkeys']
          simp only [keysOf, List.map_nil, List.not_mem_nil, false_or]
          rw [rename_keys_iff (hinv x hx) pname nn hpmem k]
          rw [mem_map_name_set hai hnd k]
          simp only [Option.getD_some]
          rw [← hpa]
          exact Iff.rfl

/-! ### Value-level lemmas about the add_row folds -/

/-- The value actually stored by `TextTableCols.__setitem__`: the `name`
    column is formatted, everything else is stored as given. -/
def setVal (autoFmt : Bool) (k : String) (v : Value) : Value :=
  if autoFmt && k == "name" then
    match v with
    | .vStr s => .vStr (format_name s)
    | v => v
  else v

theorem Cols_set_ok_entries {c c' : Cols} {k : String} {v : Value}
    (h : c.set k v = .ok c') :
    c'.entries = dictInsert k (setVal c.autoFormat k v) c.entries ∧
      c'.autoFormat = c.autoFormat := by
  by_cases hc : (c.autoFormat && k == "name") = true
  · cases v with
    | vStr s =>
      simp only [Cols.set, hc, if_true] at h
      injection h with h
      simp only [setVal, hc, if_true]
      exact ⟨by rw [← h], by rw [← h]⟩
    | vNum q => simp [Cols.set, hc] at h
    | vBool b => simp [Cols.set, hc] at h
    | vInt n => simp [Cols.set, hc] at h
    | vList l => simp [Cols.set, hc] at h
    | vTime a b => simp [Cols.set, hc] at h
    | vNone => simp [Cols.set, hc] at h
  · simp only [Cols.set, if_neg hc] at h
    injection h with h
    simp only [setVal, if_neg hc]
    exact ⟨by rw [← h], by rw [← h]⟩

theorem Cols_set_name_vStr {c c' : Cols} {v : Value}
    (h : c.set "name" v = .ok c') (hfmt : c.autoFormat = true) :
    ∃ s, v = .vStr s := by
  have hc : (c.autoFormat && "name" == "name") = true := by simp [hfmt]
  cases v with
  | vStr s => exact ⟨s, rfl⟩
  | vNum q => simp [Cols.set, hc, hfmt] at h
  | vBool b => simp [Cols.set, hc, hfmt] at h
  | vInt n => simp [Cols.set, hc, hfmt] at h
  | vList l => simp [Cols.set, hc, hfmt] at h
  | vTime a b => simp [Cols.set, hc, hfmt] at h
  | vNone => simp [Cols.set, hc, hfmt] at h

/-- The predefine fold keeps `autoFormat`, only touches declared names,
    and its key set is the old keys plus the property names. -/
theorem predefFold_spec (props : List Property) :
    ∀ {c c' : Cols}, props.foldlM predefStep c = .ok c' →
      c'.autoFormat = c.autoFormat ∧
      (∀ k, k ∉ props.map (fun p => p.name) →
        lookupD k c'.entries = lookupD k c.entries) ∧
      (∀ k, k ∈ keysOf c'.entries ↔
        k ∈ keysOf c.entries ∨ k ∈ props.map (fun p => p.name)) := by
  induction props with
  | nil =>
    intro c c' h
    simp only [List.foldlM_nil] at h
    injection h with h
    subst h
    exact ⟨rfl, fun k _ => rfl, fun k => by simp⟩
  | cons p props ih =>
    intro c c' h
    simp only [List.foldlM_cons] at h
    rw [except_bind_ok_iff] at h
    obtain ⟨c₂, hc₂, h⟩ := h
    unfold predefStep at hc₂
    rw [except_bind_ok_iff] at hc₂
    obtain ⟨d, hd, hc₂⟩ := hc₂
    obtain ⟨hent, hfmt⟩ := Cols_set_ok_entries hc₂
    obtain ⟨ihfmt, ihlook, ihkeys⟩ := ih h
    refine ⟨by rw [ihfmt, hfmt], ?_, ?_⟩
    · intro k hk
      simp only [List.map_cons, List.mem_cons, not_or] at hk
      rw [ihlook k (by exact hk.2), hent,
        lookupD_dictInsert_ne (fun hh => hk.1 hh) _ _]
    · intro k
      rw [ihkeys k]
      rw [show keysOf c₂.entries
          = keysOf (dictInsert p.name (setVal c.autoFormat p.name d) c.entries)
        from by rw [hent]]
      rw [mem_keysOf_dictInsert]
      simp only [List.map_cons, List.mem_cons]
      tauto

/-- With duplicate-free property names, the predefine fold stores each
    non-`name` property's default value. -/
theorem predefFold_lookup (props : List Property) :
    ∀ {c c' : Cols}, (props.map (fun p => p.name)).Nodup →
      props.foldlM predefStep c = .ok c' →
      ∀ p ∈ props, p.name ≠ "name" →
        ∃ d, fieldDefault p.type = Except.ok d ∧
          lookupD p.name c'.entries = some d := by
  induction props with
  | nil =>
    intro c c' _ h p hp
    simp at hp
  | cons q props ih =>
    intro c c' hnd h p hp hpname
    simp only [List.map_cons, List.nodup_cons] at hnd
    simp only [List.foldlM_cons] at h
    rw [except_bind_ok_iff] at h
    obtain ⟨c₂, hc₂, h⟩ := h
    unfold predefStep at hc₂
    rw [except_bind_ok_iff] at hc₂
    obtain ⟨d, hd, hc₂⟩ := hc₂
    obtain ⟨hent, hfmt⟩ := Cols_set_ok_entries hc₂
    rcases List.mem_cons.1 hp with he | he
    · subst he
      refine ⟨d, hd, ?_⟩
      have hrest := (predefFold_spec props h).2.1 p.name hnd.1
      rw [hrest, hent, lookupD_dictInsert_self]
      simp only [setVal]
      rw [if_neg]
      simp only [Bool.and_eq_true, beq_iff_eq]
      rintro ⟨_, hn⟩
      exact hpname hn
    · exact ih hnd.2 h p he hpname

/-- The overlay fold keeps `autoFormat` and never touches keys outside the
    kwargs. -/
theorem overlayFold_spec (t : Table) (kw : List (String × Value)) :
    ∀ {c c' : Cols}, kw.foldlM (overlayStep t) c = .ok c' →
      c'.autoFormat = c.autoFormat ∧
      (∀ k, k ∉ keysOf kw → lookupD k c'.entries = lookupD k c.entries) ∧
      (∀ k, k ∈ keysOf c'.entries →
        k ∈ keysOf c.entries ∨ k ∈ t.get_property_names) := by
  induction kw with
  | nil =>
    intro c c' h
    simp only [List.foldlM_nil] at h
    injection h with h
    subst h
    exact ⟨rfl, fun k _ => rfl, fun k hk => Or.inl hk⟩
  | cons kv kw ih =>
    intro c c' h
    simp only [List.foldlM_cons] at h
    rw [except_bind_ok_iff] at h
    obtain ⟨c₂, hc₂, h⟩ := h
    obtain ⟨ihfmt, ihlook, ihkeys⟩ := ih h
    by_cases hdecl : t.get_property_names.contains kv.1 = true
    · simp only [overlayStep, hdecl, if_true] at hc₂
      rw [except_bind_ok_iff] at hc₂
      obtain ⟨v', hv', hc₂⟩ := hc₂
      obtain ⟨hent, hfmt⟩ := Cols_set_ok_entries hc₂
      refine ⟨by rw [ihfmt, hfmt], ?_, ?_⟩
      · intro k hk
        simp only [keysOf, List.map_cons, List.mem_cons, not_or] at hk
        rw [ihlook k (by simpa [keysOf] using hk.2), hent,
          lookupD_dictInsert_ne (fun hh => hk.1 hh) _ _]
      · intro k hk
        rcases ihkeys k hk with hk2 | hk2
        · rw [hent, mem_keysOf_dictInsert] at hk2
          rcases hk2 with hk2 | hk2
          · subst hk2
            exact Or.inr (contains_iff_mem.1 hdecl)
          · exact Or.inl hk2
        · exact Or.inr hk2
    · simp only [overlayStep, hdecl, Bool.false_eq_true, if_false] at hc₂
      rw [except_pure_ok_iff] at hc₂
      subst hc₂
      refine ⟨ihfmt, ?_, ?_⟩
      · intro k hk
        simp only [keysOf, List.map_cons, List.mem_cons, not_or] at hk
        exact ihlook k (by simpa [keysOf] using hk.2)
      · exact ihkeys

/-- With duplicate-free kwargs keys, the overlay fold stores exactly the
    coercion ladder's result (formatted when it is the `name` column). -/
theorem overlayFold_lookup (t : Table) (kw : List (String × Value)) :
    ∀ {c c' : Cols}, (keysOf kw).Nodup →
      kw.foldlM (overlayStep t) c = .ok c' →
      ∀ kv ∈ kw, t.get_property_names.contains kv.1 = true →
        ∃ v', overlayResult t kv.1 kv.2 = .ok v' ∧
          lookupD kv.1 c'.entries = some (setVal c.autoFormat kv.1 v') ∧
          (c.autoFormat = true → kv.1 = "name" → ∃ s, v' = Value.vStr s) := by
  induction kw with
  | nil =>
    intro c c' _ _ kv hkv
    simp at hkv
  | cons kv0 kw ih =>
    intro c c' hnd h kv hkv hdecl
    simp only [keysOf, List.map_cons, List.nodup_cons] at hnd
    simp only [List.foldlM_cons] at h
    rw [except_bind_ok_iff] at h
    obtain ⟨c₂, hc₂, h⟩ := h
    rcases List.mem_cons.1 hkv with he | he
    · subst he
      simp only [overlayStep, hdecl, if_true] at hc₂
      rw [except_bind_ok_iff] at hc₂
      obtain ⟨v', hv', hset⟩ := hc₂
      obtain ⟨hent, hfmt⟩ := Cols_set_ok_entries hset
      refine ⟨v', hv', ?_, ?_⟩
      · have hrest := (overlayFold_spec t kw h).2.1 kv.1 (by simpa [keysOf] using hnd.1)
        rw [hrest, hent, lookupD_dictInsert_self]
      · intro hfm hname
        rw [hname] at hset
        exact Cols_set_name_vStr hset hfm
    · have hfmt₂ : c₂.autoFormat = c.autoFormat := by
        by_cases hd0 : t.get_property_names.contains kv0.1 = true
        · simp only [overlayStep, hd0, if_true] at hc₂
          rw [except_bind_ok_iff] at hc₂
          obtain ⟨v0, _, hset⟩ := hc₂
          exact (Cols_set_ok_entries hset).2
        · simp only [overlayStep, hd0, Bool.false_eq_true, if_false] at hc₂
          rw [except_pure_ok_iff] at hc₂
          rw [← hc₂]
      obtain ⟨v', hv', hlk, hvs⟩ := ih hnd.2 h kv he hdecl
      refine ⟨v', hv', ?_, ?_⟩
      · rw [hlk, hfmt₂]
      · intro hfm hname
        exact hvs (by rw [hfmt₂, hfm]) hname

/-- `convert` never returns a string. -/
theorem convert_ne_vStr (s s' : String) : convert s ≠ Value.vStr s' := by
  unfold convert
  by_cases h1 : pyLower s = "false"
  · simp [h1]
  · by_cases h2 : pyLower s = "true"
    · simp [h1, h2]
    · by_cases h3 : pyIsNumeric s = true
      · simp [h1, h2, h3]
      · simp [h1, h2, h3]

/-- If the coercion ladder is fed a string and returns a string, it
    returned the input unchanged (the only string-producing branch is the
    exact-match one). -/
theorem overlayResult_vStr {t : Table} {k n : String} {v' : Value}
    (h : overlayResult t k (Value.vStr n) = .ok v') :
    (∃ s, v' = Value.vStr s) → v' = Value.vStr n := by
  rintro ⟨s, hs⟩
  subst hs
  unfold overlayResult at h
  rw [except_bind_ok_iff] at h
  obtain ⟨p, hp, h⟩ := h
  rw [except_bind_ok_iff] at h
  obtain ⟨m, hm, h⟩ := h
  cases m with
  | true =>
    rw [if_pos rfl] at h
    rw [except_pure_ok_iff] at h
    rw [h]
  | false =>
    rw [if_neg Bool.false_ne_true] at h
    cases p with
    | mk pn pty =>
      cases pty with
      | typed ty =>
        simp only [fieldConvert] at h
        injection h with h
        exact absurd h (convert_ne_vStr n s)
      | raw str =>
        simp only [fieldConvert] at h
        injection h

/-! ### dupScan and addRowCore inversions -/

theorem dupScan_from_true (rows : List Row) (nameV : Value) :
    rows.foldlM (dupStep nameV) true = .ok true := by
  induction rows with
  | nil => rfl
  | cons r rows ih =>
    simp only [List.foldlM_cons]
    rw [show dupStep nameV true r = Except.ok true from rfl, except_bind_ok]
    exact ih

theorem dupStep_false_some {nameV : Value} {n : String} (hnv : nameV = Value.vStr n)
    {r : Row} {rv : Value} (hrv : r.cols.get? "name" = some rv) :
    dupStep nameV false r = .ok (decide (rv = Value.vStr (format_name n))) := by
  subst hnv
  unfold dupStep
  rw [if_neg Bool.false_ne_true, hrv]
  rfl

theorem dupScan_ok_true {rows : List Row} {n : String}
    (hdef : ∀ r ∈ rows, (r.cols.get? "name").isSome = true)
    (hdup : ∃ r ∈ rows, r.cols.get? "name" = some (Value.vStr (format_name n))) :
    dupScan rows (Value.vStr n) = .ok true := by
  induction rows with
  | nil => simp at hdup
  | cons r rows ih =>
    unfold dupScan
    simp only [List.foldlM_cons]
    obtain ⟨rv, hrv⟩ := Option.isSome_iff_exists.1 (hdef r (List.mem_cons_self r rows))
    rw [dupStep_false_some rfl hrv, except_bind_ok]
    by_cases heq : rv = Value.vStr (format_name n)
    · rw [decide_eq_true heq]
      exact dupScan_from_true rows _
    · rw [decide_eq_false heq]
      rcases hdup with ⟨r', hr', hcol⟩
      rcases List.mem_cons.1 hr' with he | he
      · subst he
        rw [hrv] at hcol
        injection hcol with hcol
        exact absurd hcol heq
      · exact ih (fun x hx => hdef x (List.mem_cons_of_mem _ hx)) ⟨r', he, hcol⟩

theorem dupScan_ok_false {rows : List Row} {nameV : Value}
    (h : dupScan rows nameV = .ok false) :
    ∀ r ∈ rows, ∀ s, nameV = Value.vStr s →
      r.cols.get? "name" ≠ some (Value.vStr (format_name s)) := by
  induction rows with
  | nil =>
    intro r hr
    simp at hr
  | cons r0 rows ih =>
    intro r hr s hnv hcol
    subst hnv
    unfold dupScan at h
    simp only [List.foldlM_cons] at h
    cases hrv : r0.cols.get? "name" with
    | none =>
      rw [show dupStep (Value.vStr s) false r0 = Except.error PyError.keyError from by
          unfold dupStep
          rw [if_neg Bool.false_ne_true, hrv], except_bind_error] at h
      injection h
    | some rv =>
      rw [dupStep_false_some rfl hrv, except_bind_ok] at h
      by_cases heq : rv = Value.vStr (format_name s)
      · rw [decide_eq_true heq] at h
        rw [dupScan_from_true rows _] at h
        injection h with h
        injection h
      · rw [decide_eq_false heq] at h
        rcases List.mem_cons.1 hr with he | he
        · subst he
          rw [hrv] at hcol
          injection hcol with hcol
          exact absurd hcol heq
        · exact ih h r he s rfl hcol

theorem addRowCore_ok_spec {t : Table} {kw : List (String × Value)} {res : Bool}
    {t' : Table} (h : addRowCore t kw = .ok (res, t')) :
    ∃ nameV, lookupD "name" kw = some nameV ∧
      ((res = false ∧ t' = t ∧ dupScan t.rows nameV = .ok true) ∨
       (res = true ∧ dupScan t.rows nameV = .ok false ∧
         ∃ c0 c1, t.props.foldlM predefStep (⟨[], true⟩ : Cols) = .ok c0 ∧
           kw.foldlM (overlayStep t) c0 = .ok c1 ∧
           t' = { t with rows := t.rows ++ [⟨c1, none⟩] })) := by
  unfold addRowCore at h
  cases hlk : lookupD "name" kw with
  | none =>
    rw [hlk] at h
    injection h
  | some nameV =>
    rw [hlk] at h
    rw [except_bind_ok_iff] at h
    obtain ⟨dup, hdup, h⟩ := h
    cases dup with
    | true =>
      rw [if_pos rfl] at h
      injection h with h
      injection h with h1 h2
      exact ⟨nameV, rfl, Or.inl ⟨h1.symm, h2.symm, hdup⟩⟩
    | false =>
      rw [if_neg Bool.false_ne_true] at h
      rw [except_bind_ok_iff] at h
      obtain ⟨c0, hc0, h⟩ := h
      rw [except_bind_ok_iff] at h
      obtain ⟨c1, hc1, h⟩ := h
      injection h with h
      injection h with h1 h2
      exact ⟨nameV, rfl, Or.inr ⟨h1.symm, hdup, c0, c1, hc0, hc1, h2.symm⟩⟩

theorem buildKwargs_nil_args (t : Table) (kwargs : List (String × Value)) :
    buildKwargs t [] kwargs = .ok kwargs := by
  unfold buildKwargs
  simp

theorem add_row_eq_core {t : Table} {args : List Value}
    {kwargs kw : List (String × Value)} (hkw : buildKwargs t args kwargs = .ok kw) :
    t.add_row args kwargs = addRowCore t kw := by
  unfold Table.add_row
  rw [hkw, except_bind_ok]

theorem lookupD_some_mem {α : Type} {k : String} {v : α} {l : List (String × α)}
    (h : lookupD k l = some v) : ∃ kv ∈ l, kv.1 = k ∧ kv.2 = v := by
  induction l with
  | nil => simp [lookupD] at h
  | cons hd tl ih =>
    obtain ⟨k0, v0⟩ := hd
    by_cases h0 : k0 = k
    · simp only [lookupD, if_pos h0] at h
      injection h with h
      exact ⟨(k0, v0), List.mem_cons_self _ _, h0, h⟩
    · simp only [lookupD, if_neg h0] at h
      obtain ⟨kv, hm, h1, h2⟩ := ih h
      exact ⟨kv, List.mem_cons_of_mem _ hm, h1, h2⟩

theorem except_bind_congr {α β : Type} {x : Except PyError α}
    {f g : α → Except PyError β} (h : ∀ a, f a = g a) : (x >>= f) = (x >>= g) := by
  cases x with
  | ok a =>
    rw [except_bind_ok, except_bind_ok]
    exact h a
  | error e =>
    rw [except_bind_error, except_bind_error]

theorem lookupD_filter_key {α : Type} {p : String × α → Bool} {k : String}
    (hp : ∀ v, p (k, v) = true) :
    ∀ l : List (String × α), lookupD k (l.filter p) = lookupD k l := by
  intro l
  induction l with
  | nil => rfl
  | cons hd tl ih =>
    obtain ⟨k0, v0⟩ := hd
    by_cases h0 : k0 = k
    · subst h0
      rw [List.filter_cons, if_pos (hp v0)]
      simp [lookupD]
    · rw [List.filter_cons]
      by_cases hpv : p (k0, v0) = true
      · rw [if_pos hpv]
        simp only [lookupD, if_neg h0]
        exact ih
      · rw [if_neg hpv]
        rw [show lookupD k ((k0, v0) :: tl) = lookupD k tl from by simp [lookupD, h0]]
        exact ih

/-- Filtering out the undeclared keys does not change the overlay fold:
    the skipped steps are identities. -/
theorem overlayFold_filter (t : Table) (kw : List (String × Value)) :
    ∀ c : Cols, kw.foldlM (overlayStep t) c =
      (kw.filter (fun kv => t.get_property_names.contains kv.1)).foldlM
        (overlayStep t) c := by
  induction kw with
  | nil => intro c; rfl
  | cons kv kw ih =>
    intro c
    by_cases hd : t.get_property_names.contains kv.1 = true
    · rw [List.filter_cons, if_pos (by simpa using hd)]
      simp only [List.foldlM_cons]
      exact except_bind_congr (fun c₂ => ih c₂)
    · rw [List.filter_cons, if_neg (by simpa using hd)]
      simp only [List.foldlM_cons]
      rw [show overlayStep t c kv = pure c from by
        unfold overlayStep
        rw [if_neg hd]]
      rw [show ((pure c : Except PyError Cols) >>= fun c₂ =>
          kw.foldlM (overlayStep t) c₂) = kw.foldlM (overlayStep t) c from rfl]
      exact ih c

/-! ### C6, C7, C10 claim theorems -/

/-- The zero value of each registered type, as the claim describes it
    (datetime and date have none: their constructors raise). -/
def zeroValue : PType → Value
  | .text => .vStr ""
  | .number => .vNum 0
  | .time => .vTime 0 0
  | .checkbox => .vBool false
  | .select => .vInt 0
  | .relation => .vList []
  | .multiselect => .vList []
  | .datetime => .vNone
  | .date => .vNone

/-- C6 amended: every registered type name except "datetime" and "date"
    resolves to a type whose `default_value` returns its zero value
    without failing, and a successful keyword-style `add_row` initializes
    every declared property that was not provided to that default (so a
    checkbox column defaults to false). -/
theorem C6_defaults_amended :
    (∀ tn ∈ typemapKeys, tn ≠ "datetime" → tn ≠ "date" →
      ∃ ty, parsePType tn = some ty ∧ default_value ty = .ok (zeroValue ty)) ∧
    (∀ (t : Table) (kwargs : List (String × Value)) (t' : Table) (p : Property),
      (t.get_property_names).Nodup →
      p ∈ t.props → p.name ≠ "name" →
      p.name ∉ keysOf kwargs →
      t.add_row [] kwargs = .ok (true, t') →
      ∃ d r, fieldDefault p.type = .ok d ∧ t'.rows = t.rows ++ [r] ∧
        r.cols.get? p.name = some d) := by
  constructor
  · intro tn htn h1 h2
    fin_cases htn
    · exact ⟨.text, rfl, rfl⟩
    · exact ⟨.number, rfl, rfl⟩
    · exact absurd rfl h1
    · exact absurd rfl h2
    · exact ⟨.time, rfl, rfl⟩
    · exact ⟨.checkbox, rfl, rfl⟩
    · exact ⟨.select, rfl, rfl⟩
    · exact ⟨.relation, rfl, rfl⟩
    · exact ⟨.multiselect, rfl, rfl⟩
  · intro t kwargs t' p hnd hp hpname hpkw h
    rw [add_row_eq_core (buildKwargs_nil_args t kwargs)] at h
    obtain ⟨nameV, hlk, hcase⟩ := addRowCore_ok_spec h
    rcases hcase with ⟨hres, _, _⟩ | ⟨_, _, c0, c1, hc0, hc1, ht'⟩
    · injection hres
    · obtain ⟨d, hd, hlook⟩ := predefFold_lookup t.props hnd hc0 p hp hpname
      refine ⟨d, ⟨c1, none⟩, hd, by rw [ht'], ?_⟩
      have hover := (overlayFold_spec t kwargs hc1).2.1 p.name hpkw
      show lookupD p.name c1.entries = some d
      rw [hover, hlook]

def c6wTable : Table :=
  { name := "tasks",
    props := [⟨"name", .typed .text⟩, ⟨"content", .typed .text⟩,
              ⟨"done", .typed .checkbox⟩],
    rows := [] }

def c6wResult : Table :=
  { name := "tasks",
    props := [⟨"name", .typed .text⟩, ⟨"content", .typed .text⟩,
              ⟨"done", .typed .checkbox⟩],
    rows := [{ cols := ⟨[("name", .vStr "eat_dinner"), ("content", .vStr ""),
                         ("done", .vBool false)], true⟩,
               contentAttr := none }] }

/-- Witness for the amended C6 theorem: "checkbox" resolves and defaults
    to false, and the `eat dinner` row gets `done = false` by default. -/
theorem C6_defaults_amended_witness :
    (∃ ty, parsePType "checkbox" = some ty ∧ default_value ty = .ok (zeroValue ty)) ∧
    (∃ d r, fieldDefault (PTypeField.typed PType.checkbox) = .ok d ∧
      c6wResult.rows = c6wTable.rows ++ [r] ∧ r.cols.get? "done" = some d) :=
  ⟨C6_defaults_amended.1 "checkbox" (by decide) (by decide) (by decide),
   C6_defaults_amended.2 c6wTable [("name", Value.vStr "eat dinner")] c6wResult
     ⟨"done", .typed .checkbox⟩ (by decide) (by decide) (by decide) (by decide)
     (by rfl)⟩

/-- C7: `add_row` with a name whose formatted form collides with an
    existing row's name returns `False` and leaves the table unchanged,
    and (on a table whose rows all carry distinct name columns and whose
    schema declares `name`) any `add_row` outcome preserves the
    distinctness of row names. -/
theorem C7_add_row_duplicate_rejection (t : Table) (args : List Value)
    (kwargs kw : List (String × Value)) (n : String)
    (hkw : buildKwargs t args kwargs = .ok kw)
    (hkwnd : (keysOf kw).Nodup)
    (hname : lookupD "name" kw = some (Value.vStr n))
    (hname_decl : "name" ∈ t.get_property_names)
    (hdef : ∀ r ∈ t.rows, (r.cols.get? "name").isSome = true)
    (hnodup : (t.rows.map (fun r => r.cols.get? "name")).Nodup) :
    ((∃ r ∈ t.rows, r.cols.get? "name" = some (Value.vStr (format_name n))) →
      t.add_row args kwargs = .ok (false, t)) ∧
    (∀ res t', t.add_row args kwargs = .ok (res, t') →
      (t'.rows.map (fun r => r.cols.get? "name")).Nodup) := by
  constructor
  · intro hdup
    rw [add_row_eq_core hkw]
    unfold addRowCore
    rw [hname]
    dsimp only
    rw [dupScan_ok_true hdef hdup, except_bind_ok, if_pos rfl]
  · intro res t' h
    rw [add_row_eq_core hkw] at h
    obtain ⟨nameV, hlk, hcase⟩ := addRowCore_ok_spec h
    rw [hname] at hlk
    injection hlk with hlk
    subst hlk
    rcases hcase with ⟨_, ht', _⟩ | ⟨_, hds, c0, c1, hc0, hc1, ht'⟩
    · rw [ht']
      exact hnodup
    · obtain ⟨kv, hkvmem, hk1, hk2⟩ := lookupD_some_mem hname
      have hdecl : t.get_property_names.contains kv.1 = true := by
        rw [hk1]
        exact contains_iff_mem.2 hname_decl
      obtain ⟨v', hov, hlkp, hvs⟩ := overlayFold_lookup t kw hkwnd hc1 kv hkvmem hdecl
      have hc0fmt : c0.autoFormat = true := (predefFold_spec t.props hc0).1
      obtain ⟨s, hvs'⟩ := hvs hc0fmt hk1
      rw [hk1, hk2] at hov
      have hv'n : v' = Value.vStr n := overlayResult_vStr hov ⟨s, hvs'⟩
      have hnamecol : lookupD "name" c1.entries = some (Value.vStr (format_name n)) := by
        rw [← hk1]
        rw [hlkp, hc0fmt, hv'n, hk1]
        rfl
      rw [ht']
      rw [List.map_append]
      rw [List.nodup_append]
      refine ⟨hnodup, by simp, ?_⟩
      intro a ha hb
      simp only [List.map_cons, List.map_nil, List.mem_cons, List.not_mem_nil,
        or_false] at hb
      obtain ⟨r0, hr0, hr0col⟩ := List.mem_map.1 ha
      have hne := dupScan_ok_false hds r0 hr0 n rfl
      apply hne
      rw [hr0col, hb]
      show (⟨c1, none⟩ : Row).cols.get? "name" = some (Value.vStr (format_name n))
      exact hnamecol

def c7wTable : Table :=
  { name := "t",
    props := [⟨"name", .typed .text⟩, ⟨"content", .typed .text⟩],
    rows := [{ cols := ⟨[("name", Value.vStr "a"), ("content", Value.vStr "")], true⟩,
               contentAttr := none }] }

/-- Witness for C7: re-adding a row named "a" is rejected with `False`
    and the table is unchanged. -/
theorem C7_add_row_duplicate_rejection_witness :
    c7wTable.add_row [] [("name", Value.vStr "a")] = .ok (false, c7wTable) :=
  (C7_add_row_duplicate_rejection c7wTable [] [("name", Value.vStr "a")]
      [("name", Value.vStr "a")] "a" (by rfl) (by decide) (by rfl) (by decide)
      (by decide) (by decide)).1 (by decide)

/-- C10: keyword arguments whose key is not a declared property are
    silently ignored — the call behaves exactly as if they were absent —
    and an inserted row only ever contains declared columns. -/
theorem C10_undeclared_kwargs_ignored (t : Table) (kwargs : List (String × Value))
    (hname_decl : "name" ∈ t.get_property_names) :
    (t.add_row [] kwargs =
      t.add_row [] (kwargs.filter (fun kv => t.get_property_names.contains kv.1))) ∧
    (∀ t', t.add_row [] kwargs = .ok (true, t') →
      ∃ r, t'.rows = t.rows ++ [r] ∧
        ∀ k ∈ keysOf r.cols.entries, k ∈ t.get_property_names) := by
  constructor
  · rw [add_row_eq_core (buildKwargs_nil_args t kwargs),
      add_row_eq_core (buildKwargs_nil_args t
        (kwargs.filter (fun kv => t.get_property_names.contains kv.1)))]
    unfold addRowCore
    rw [lookupD_filter_key
      (fun v => contains_iff_mem.2 hname_decl) kwargs]
    cases hlk : lookupD "name" kwargs with
    | none => rfl
    | some nameV =>
      refine except_bind_congr (fun dup => ?_)
      cases dup with
      | true => rfl
      | false =>
        rw [if_neg Bool.false_ne_true, if_neg Bool.false_ne_true]
        refine except_bind_congr (fun c0 => ?_)
        rw [overlayFold_filter t kwargs c0]
  · intro t' h
    rw [add_row_eq_core (buildKwargs_nil_args t kwargs)] at h
    obtain ⟨nameV, hlk, hcase⟩ := addRowCore_ok_spec h
    rcases hcase with ⟨hres, _, _⟩ | ⟨_, _, c0, c1, hc0, hc1, ht'⟩
    · injection hres
    · refine ⟨⟨c1, none⟩, by rw [ht'], ?_⟩
      intro k hk
      rcases (overlayFold_spec t kwargs hc1).2.2 k hk with hk2 | hk2
      · rcases ((predefFold_spec t.props hc0).2.2 k).1 hk2 with hk3 | hk3
        · simp [keysOf] at hk3
        · exact hk3
      · exact hk2

def c10wTable : Table :=
  { name := "t",
    props := [⟨"name", .typed .text⟩, ⟨"content", .typed .text⟩],
    rows := [] }

/-- Witness for C10 at a call passing the undeclared key "ghost". -/
theorem C10_undeclared_kwargs_ignored_witness :
    c10wTable.add_row [] [("name", Value.vStr "a"), ("ghost", Value.vBool true)] =
      c10wTable.add_row []
        ([("name", Value.vStr "a"), ("ghost", Value.vBool true)].filter
          (fun kv => c10wTable.get_property_names.contains kv.1)) :=
  (C10_undeclared_kwargs_ignored c10wTable
    [("name", Value.vStr "a"), ("ghost", Value.vBool true)] (by decide)).1

def c3wTable : Table :=
  { name := "tasks",
    props := [⟨"name", .typed .text⟩, ⟨"content", .typed .text⟩,
              ⟨"done", .typed .checkbox⟩],
    rows := [{ cols := ⟨[("name", .vStr "a"), ("content", .vStr ""),
                         ("done", .vBool true)], true⟩,
               contentAttr := none }] }

def c3wResult : Table :=
  { name := "tasks",
    props := [⟨"name", .typed .text⟩, ⟨"content", .typed .text⟩,
              ⟨"finished", .typed .checkbox⟩],
    rows := [{ cols := ⟨[("name", .vBool true), ("content", .vBool true),
                         ("finished", .vBool true)], false⟩,
               contentAttr := none }] }

/-- Witness for the amended C3 theorem: a completed rename keeps every
    row's column set equal to the schema names. -/
theorem C3_schema_ops_witness : ColsMatchSchema c3wResult :=
  C3_schema_ops_preserve_column_sets c3wTable (.editProp "done" (some "finished") none)
    true c3wResult (by decide) (by decide)
    (by
      intro r hr k
      simp only [c3wTable, List.mem_singleton] at hr
      subst hr
      exact Iff.rfl)
    (by rfl)

/-- C3 counterexample: after `add_property "a"` twice, one positional row
    insert, and a completed `edit_property "a"` renaming it to "b", the schema
    still lists property "a" but no row has an "a" column — the claimed
    invariant fails after a completed call. -/
theorem C3_counterexample :
    c3Setup = .ok (true, c3Result) ∧
    "a" ∈ c3Result.get_property_names ∧
    c3Result.rows.length = 1 ∧
    ∀ r ∈ c3Result.rows, "a" ∉ keysOf r.cols.entries := by
  refine ⟨by rfl, by decide, by rfl, by decide⟩

/-- C9 amended: `load` cannot create duplicate table names — the loaded
    names are a subsequence of the (unique) directory names — while
    `add_table` performs no duplicate check (see the counterexample). -/
theorem C9_load_names_nodup (path : String) (fs : FS) (db : Db)
    (hnd : (fs.tableDirs.map (fun e => e.1)).Nodup)
    (h : loadDb path fs = .ok db) :
    (db.tables.map (fun t => t.name)).Nodup := by
  unfold loadDb at h
  by_cases hroot : fs.rootExists = false
  · rw [if_pos hroot] at h
    injection h with h
    rw [← h]
    exact List.nodup_nil
  · rw [if_neg hroot] at h
    rw [except_bind_ok_iff] at h
    obtain ⟨ts, hts, h⟩ := h
    injection h with h
    subst h
    suffices hgen : ∀ (dirs : List (String × List (String × RowFile)))
        (acc ts' : List Table), (dirs.map (fun e => e.1)).Nodup →
        (∀ t ∈ acc, t.name ∉ dirs.map (fun e => e.1)) →
        (acc.map (fun t => t.name)).Nodup →
        (dirs.foldlM (loadDirStep fs) acc) = .ok ts' →
        (ts'.map (fun t => t.name)).Nodup by
      exact hgen fs.tableDirs [] ts hnd (by simp) (by simp) hts
    intro dirs
    induction dirs with
    | nil =>
      intro acc ts' _ _ haccnd hfold
      simp only [List.foldlM_nil] at hfold
      injection hfold with hfold
      rw [← hfold]
      exact haccnd
    | cons e dirs ih =>
      intro acc ts' hnd2 hdisj haccnd hfold
      simp only [List.map_cons, List.nodup_cons] at hnd2
      simp only [List.foldlM_cons] at hfold
      rw [except_bind_ok_iff] at hfold
      obtain ⟨acc₂, hacc₂, hfold⟩ := hfold
      unfold loadDirStep at hacc₂
      cases hdata : e.1.data with
      | nil =>
        rw [hdata] at hacc₂
        injection hacc₂
      | cons c cs =>
        rw [hdata] at hacc₂
        dsimp only at hacc₂
        by_cases hc : c = '.'
        · rw [if_pos hc] at hacc₂
          rw [except_pure_ok_iff] at hacc₂
          subst hacc₂
          exact ih acc ts' hnd2.2
            (fun t ht => fun hmem => hdisj t ht (List.mem_cons_of_mem _ hmem))
            haccnd hfold
        · rw [if_neg hc] at hacc₂
          rw [except_bind_ok_iff] at hacc₂
          obtain ⟨tnew, htnew, hacc₂⟩ := hacc₂
          rw [except_pure_ok_iff] at hacc₂
          subst hacc₂
          have hname : tnew.name = e.1 := by
            unfold loadTableDir at htnew
            rw [except_bind_ok_iff] at htnew
            obtain ⟨t1, ht1, htnew⟩ := htnew
            have h1 : t1.name = e.1 := by
              unfold Table.load_properties at ht1
              cases hlp : lookupD (mkTable e.1).name fs.propFiles with
              | none =>
                rw [hlp] at ht1
                injection ht1 with ht1
                rw [← ht1]
                rfl
              | some desc =>
                rw [hlp] at ht1
                have : ∀ (ds : List (String × String)) (tt tt' : Table),
                    ds.foldlM loadPropStep tt = .ok tt' → tt'.name = tt.name := by
                  intro ds
                  induction ds with
                  | nil =>
                    intro tt tt' hh
                    simp only [List.foldlM_nil] at hh
                    injection hh with hh
                    rw [← hh]
                  | cons d ds ih2 =>
                    intro tt tt' hh
                    simp only [List.foldlM_cons] at hh
                    rw [except_bind_ok_iff] at hh
                    obtain ⟨tt₂, htt₂, hh⟩ := hh
                    have h2 := ih2 tt₂ tt' hh
                    rw [h2]
                    unfold loadPropStep at htt₂
                    rw [except_bind_ok_iff] at htt₂
                    obtain ⟨bt, hbt, htt₂⟩ := htt₂
                    rw [except_pure_ok_iff] at htt₂
                    rw [← htt₂]
                    unfold Table.add_property at hbt
                    by_cases hpr : protected_properties.contains d.1 = true
                    · rw [if_pos hpr] at hbt
                      injection hbt with hbt
                      rw [← hbt]
                    · rw [if_neg hpr] at hbt
                      cases hpt : parsePType d.2 with
                      | none =>
                        rw [hpt] at hbt
                        injection hbt
                      | some ty =>
                        rw [hpt] at hbt
                        rw [except_bind_ok_iff] at hbt
                        obtain ⟨rws, _, hbt⟩ := hbt
                        injection hbt with hbt
                        rw [← hbt]
                exact this desc (mkTable e.1) t1 ht1
            have h2 : ∀ (fls : List (String × RowFile)) (tt tt' : Table),
                fls.foldlM loadRowStep tt = .ok tt' → tt'.name = tt.name := by
              intro fls
              induction fls with
              | nil =>
                intro tt tt' hh
                simp only [List.foldlM_nil] at hh
                injection hh with hh
                rw [← hh]
              | cons f fls ih2 =>
                intro tt tt' hh
                simp only [List.foldlM_cons] at hh
                rw [except_bind_ok_iff] at hh
                obtain ⟨tt₂, htt₂, hh⟩ := hh
                rw [ih2 tt₂ tt' hh]
                unfold loadRowStep Table.load_row_file at htt₂
                rw [except_bind_ok_iff] at htt₂
                obtain ⟨bt, hbt, htt₂⟩ := htt₂
                rw [except_pure_ok_iff] at htt₂
                rw [← htt₂]
                unfold Table.add_row at hbt
                rw [except_bind_ok_iff] at hbt
                obtain ⟨kw2, _, hbt⟩ := hbt
                obtain ⟨nv, _, hcase⟩ := @addRowCore_ok_spec _ _ bt.1 bt.2
                  (by rw [← hbt])
                rcases hcase with ⟨_, hh2, _⟩ | ⟨_, _, cc0, cc1, _, _, hh2⟩
                · rw [hh2]
                · rw [hh2]
            rw [h2 e.2 t1 tnew htnew, h1]
          exact ih (acc ++ [tnew]) ts' hnd2.2
            (by
              intro tt htt
              rcases List.mem_append.1 htt with hmem | hmem
              · exact fun hmem2 => hdisj tt hmem (List.mem_cons_of_mem _ hmem2)
              · rw [List.mem_singleton] at hmem
                subst hmem
                rw [hname]
                exact hnd2.1)
            (by
              rw [List.map_append, List.nodup_append]
              refine ⟨haccnd, by simp, ?_⟩
              intro a ha hb
              simp only [List.map_cons, List.map_nil, List.mem_cons,
                List.not_mem_nil, or_false] at hb
              obtain ⟨tt, htt, httname⟩ := List.mem_map.1 ha
              subst hb
              have h3 : tt.name = e.1 := by
                rw [httname]
                exact hname
              apply hdisj tt htt
              rw [List.map_cons, h3]
              exact List.mem_cons_self _ _)
            hfold

def c9wFS : FS := ⟨true, true, [], [("a", []), ("b", [])]⟩

def c9wDb : Db := ⟨"p", [mkTable "a", mkTable "b"]⟩

/-- Witness for the amended C9 theorem on a two-directory filesystem. -/
theorem C9_load_names_nodup_witness : (c9wDb.tables.map (fun t => t.name)).Nodup :=
  C9_load_names_nodup "p" c9wFS c9wDb (by decide) (by rfl)

/-! ### Well-formedness for the round-trip theorem (C1) -/

/-- The types whose values the on-disk format carries losslessly
    (datetime/date have no constructible default, and `datetime.time`
    values cannot be YAML-dumped). -/
def allowedPType : PType → Bool
  | .text | .number | .checkbox | .select | .relation | .multiselect => true
  | _ => false

def wellTypedVal : PType → Value → Bool
  | .text, .vStr _ => true
  | .number, .vNum _ => true
  | .checkbox, .vBool _ => true
  | .select, .vInt _ => true
  | .relation, .vList _ => true
  | .multiselect, .vList _ => true
  | _, _ => false

def propTypeOf (t : Table) (k : String) : Option PTypeField :=
  (t.props.find? (fun p => p.name == k)).map (fun p => p.type)

def goodEntry (t : Table) (kv : String × Value) : Bool :=
  if kv.1 = "name" then
    match kv.2 with
    | .vStr s => format_name s == s
    | _ => false
  else if kv.1 = "content" then
    match kv.2 with
    | .vStr s => pyRstrip s == s
    | _ => false
  else
    match propTypeOf t kv.1 with
    | some (.typed ty) => allowedPType ty && wellTypedVal ty kv.2
    | _ => false

def rowNameVal (r : Row) : Option Value := r.cols.get? "name"

def goodRow (t : Table) (r : Row) : Bool :=
  decide ((keysOf r.cols.entries).Nodup) &&
  (keysOf r.cols.entries).all (fun k => t.get_property_names.contains k) &&
  t.get_property_names.all (fun k => (keysOf r.cols.entries).contains k) &&
  r.cols.entries.all (goodEntry t)

def goodTable (t : Table) : Bool :=
  (t.name != "") &&
  (format_name t.name == t.name) &&
  decide (t.get_property_names.Nodup) &&
  (propTypeOf t "name" == some (.typed .text)) &&
  (propTypeOf t "content" == some (.typed .text)) &&
  t.props.all (fun p => match p.type with
    | .typed ty => allowedPType ty
    | .raw _ => false) &&
  t.rows.all (goodRow t) &&
  decide ((t.rows.map rowNameVal).Nodup)

def goodDb (db : Db) : Bool :=
  decide (db.get_table_names.Nodup) && db.tables.all goodTable

/-! ### The on-disk image of a well-formed database -/

def rowNameStr (r : Row) : String :=
  match r.cols.get? "name" with
  | some (.vStr s) => s
  | _ => ""

def rowDump (r : Row) : List (String × Value) :=
  dictRemove "content" (dictRemove "name" r.cols.entries)

def rowBody (r : Row) : String :=
  match r.cols.get? "content" with
  | some (.vStr s) => s
  | _ => ""

def rowFileOf (r : Row) : String × RowFile :=
  (rowNameStr r ++ ".md", ⟨rowDump r, rowBody r⟩)

def descList (props : List Property) : List (String × String) :=
  props.map (fun p => (p.name,
    match p.type with
    | .typed ty => typeName ty
    | .raw s => s))

def savedFS (db : Db) : FS :=
  ⟨true, true,
   db.tables.map (fun t => (t.name, descList t.props)),
   db.tables.map (fun t => (t.name, t.rows.map rowFileOf))⟩

/-! ### String lemmas -/

theorem strAppendData (s t : String) : (s ++ t).data = s.data ++ t.data := by
  cases s
  cases t
  rfl

theorem strDataInj {s t : String} (h : s.data = t.data) : s = t := by
  cases s
  cases t
  congr 1

theorem replaceChar_not_mem {a b : Char} (hab : a ≠ b) (l : List Char) :
    a ∉ replaceChar a b l := by
  intro h
  obtain ⟨c, hc, hceq⟩ := List.mem_map.1 h
  by_cases h2 : c = a
  · rw [if_pos h2] at hceq
    exact hab hceq.symm
  · rw [if_neg h2] at hceq
    exact h2 hceq

theorem format_name_no_dot (s : String) : '.' ∉ (format_name s).data := by
  intro h
  unfold format_name at h
  simp only [String.data] at h
  have h1 : '.' ∈ replaceChar '.' '-' (replaceChar ' ' '_' s.data) :=
    List.mem_of_mem_filter h
  exact replaceChar_not_mem (by decide) _ h1

theorem removeMd_cons_ne {c : Char} (hc : c ≠ '.') (cs : List Char) :
    removeMd (c :: cs) = c :: removeMd cs := by
  conv_lhs => rw [removeMd.eq_def]
  split
  · rename_i heq
    injection heq with h1 h2
    exact absurd h1 hc
  · rename_i heq
    injection heq with h1 h2
    rw [h1, h2]
  · rename_i heq
    exact absurd heq (by simp)

theorem removeMd_no_dot {l : List Char} (h : '.' ∉ l) : removeMd l = l := by
  induction l with
  | nil => rfl
  | cons c cs ih =>
    simp only [List.mem_cons, not_or] at h
    rw [removeMd_cons_ne (Ne.symm h.1) cs, ih h.2]

theorem removeMd_append_md {l : List Char} (h : '.' ∉ l) :
    removeMd (l ++ ['.', 'm', 'd']) = l := by
  induction l with
  | nil => rfl
  | cons c cs ih =>
    simp only [List.mem_cons, not_or] at h
    rw [List.cons_append, removeMd_cons_ne (Ne.symm h.1), ih h.2]

/-! ### Consequences of well-formedness -/

theorem goodRow_parts {t : Table} {r : Row} (h : goodRow t r = true) :
    (keysOf r.cols.entries).Nodup ∧
    (∀ k ∈ keysOf r.cols.entries, k ∈ t.get_property_names) ∧
    (∀ k ∈ t.get_property_names, k ∈ keysOf r.cols.entries) ∧
    (∀ kv ∈ r.cols.entries, goodEntry t kv = true) := by
  simp only [goodRow, Bool.and_eq_true, List.all_eq_true, decide_eq_true_eq,
    contains_iff_mem] at h
  exact ⟨h.1.1.1, h.1.1.2, h.1.2, h.2⟩

theorem goodTable_parts {t : Table} (h : goodTable t = true) :
    t.name ≠ "" ∧ format_name t.name = t.name ∧
    t.get_property_names.Nodup ∧
    propTypeOf t "name" = some (.typed .text) ∧
    propTypeOf t "content" = some (.typed .text) ∧
    (∀ p ∈ t.props, ∃ ty, p.type = .typed ty ∧ allowedPType ty = true) ∧
    (∀ r ∈ t.rows, goodRow t r = true) ∧
    (t.rows.map rowNameVal).Nodup := by
  simp only [goodTable, Bool.and_eq_true, bne_iff_ne, beq_iff_eq, decide_eq_true_eq,
    List.all_eq_true] at h
  refine ⟨h.1.1.1.1.1.1.1, h.1.1.1.1.1.1.2, h.1.1.1.1.1.2, h.1.1.1.1.2,
    h.1.1.1.2, ?_, h.1.2, h.2⟩
  intro p hp
  have htp := h.1.1.2 p hp
  cases hpt : p.type with
  | typed ty =>
    rw [hpt] at htp
    exact ⟨ty, rfl, htp⟩
  | raw s =>
    rw [hpt] at htp
    simp at htp

theorem goodDb_parts {db : Db} (h : goodDb db = true) :
    db.get_table_names.Nodup ∧ (∀ t ∈ db.tables, goodTable t = true) := by
  simp only [goodDb, Bool.and_eq_true, List.all_eq_true, decide_eq_true_eq] at h
  exact h

theorem propTypeOf_some_mem {t : Table} {k : String} {tf : PTypeField}
    (h : propTypeOf t k = some tf) : k ∈ t.get_property_names := by
  unfold propTypeOf at h
  cases hf : t.props.find? (fun p => p.name == k) with
  | none =>
    rw [hf] at h
    exact absurd h (by simp)
  | some p =>
    have hmem := List.mem_of_find?_eq_some hf
    have hpk := List.find?_some hf
    simp only [beq_iff_eq] at hpk
    exact List.mem_map.2 ⟨p, hmem, hpk⟩

theorem goodRow_protected_cols {t : Table} {r : Row}
    (hg : goodRow t r = true) (hname : "name" ∈ t.get_property_names)
    (hcontent : "content" ∈ t.get_property_names) :
    (∃ s, r.cols.get? "name" = some (Value.vStr s) ∧ format_name s = s) ∧
    (∃ s, r.cols.get? "content" = some (Value.vStr s) ∧ pyRstrip s = s) := by
  obtain ⟨hnd, hsub, hsup, hent⟩ := goodRow_parts hg
  constructor
  · have hk := hsup "name" hname
    cases hv : r.cols.get? "name" with
    | none =>
      rw [show r.cols.get? "name" = lookupD "name" r.cols.entries from rfl,
        lookupD_eq_none_iff] at hv
      exact absurd hk hv
    | some v =>
      obtain ⟨⟨k0, v0⟩, hmem0, hk0, hv0⟩ := lookupD_some_mem hv
      subst hk0
      subst hv0
      have he := hent _ hmem0
      unfold goodEntry at he
      rw [if_pos rfl] at he
      cases v0 with
      | vStr s =>
        simp only [beq_iff_eq] at he
        exact ⟨s, rfl, he⟩
      | vNum q => simp at he
      | vBool b => simp at he
      | vInt n => simp at he
      | vList l => simp at he
      | vTime a b => simp at he
      | vNone => simp at he
  · have hk := hsup "content" hcontent
    cases hv : r.cols.get? "content" with
    | none =>
      rw [show r.cols.get? "content" = lookupD "content" r.cols.entries from rfl,
        lookupD_eq_none_iff] at hv
      exact absurd hk hv
    | some v =>
      obtain ⟨⟨k0, v0⟩, hmem0, hk0, hv0⟩ := lookupD_some_mem hv
      subst hk0
      subst hv0
      have he := hent _ hmem0
      unfold goodEntry at he
      rw [if_neg (by decide : ¬("content" = "name")), if_pos rfl] at he
      cases v0 with
      | vStr s =>
        simp only [beq_iff_eq] at he
        exact ⟨s, rfl, he⟩
      | vNum q => simp at he
      | vBool b => simp at he
      | vInt n => simp at he
      | vList l => simp at he
      | vTime a b => simp at he
      | vNone => simp at he

theorem goodEntry_other {t : Table} {k : String} {v : Value}
    (hk1 : k ≠ "name") (hk2 : k ≠ "content")
    (he : goodEntry t (k, v) = true) :
    ∃ ty, propTypeOf t k = some (.typed ty) ∧ allowedPType ty = true ∧
      wellTypedVal ty v = true := by
  unfold goodEntry at he
  rw [if_neg hk1, if_neg hk2] at he
  cases hpt : propTypeOf t k with
  | none =>
    rw [hpt] at he
    simp at he
  | some tf =>
    rw [hpt] at he
    cases tf with
    | typed ty =>
      simp only [Bool.and_eq_true] at he
      exact ⟨ty, rfl, he.1, he.2⟩
    | raw s =>
      simp at he

theorem rowDump_keys (r : Row) :
    keysOf (rowDump r) = ((keysOf r.cols.entries).erase "name").erase "content" := by
  unfold rowDump
  rw [keysOf_dictRemove, keysOf_dictRemove]

theorem not_mem_erase_self {l : List String} (hnd : l.Nodup) (k : String) :
    k ∉ l.erase k :=
  fun h => ((List.Nodup.mem_erase_iff hnd).1 h).1 rfl

theorem rowDump_name_not_mem {r : Row} (hnd : (keysOf r.cols.entries).Nodup) :
    "name" ∉ keysOf (rowDump r) := by
  rw [rowDump_keys]
  intro h
  exact not_mem_erase_self hnd "name" (List.mem_of_mem_erase h)

theorem rowDump_content_not_mem {r : Row} (hnd : (keysOf r.cols.entries).Nodup) :
    "content" ∉ keysOf (rowDump r) := by
  rw [rowDump_keys]
  exact not_mem_erase_self (List.Nodup.erase _ hnd) "content"

/-! ### The save pass on a well-formed database -/

theorem map_if_key_not_mem {α : Type} {d : String} {l : List (String × α)}
    (h : d ∉ keysOf l) (f : α → α) :
    l.map (fun e => if e.1 = d then (e.1, f e.2) else e) = l := by
  induction l with
  | nil => rfl
  | cons hd tl ih =>
    obtain ⟨k0, v0⟩ := hd
    simp only [keysOf, List.map_cons, List.mem_cons, not_or] at h
    rw [List.map_cons]
    rw [show (if (k0, v0).1 = d then ((k0, v0).1, f (k0, v0).2) else (k0, v0)) = (k0, v0)
      from if_neg (fun hh : k0 = d => h.1 hh.symm)]
    rw [ih (by simpa [keysOf] using h.2)]

theorem goodEntry_representable {t : Table} {kv : String × Value}
    (he : goodEntry t kv = true) : yamlRepresentable kv.2 = true := by
  obtain ⟨k, v⟩ := kv
  by_cases h1 : k = "name"
  · unfold goodEntry at he
    rw [if_pos h1] at he
    cases v <;> simp_all [yamlRepresentable]
  · by_cases h2 : k = "content"
    · unfold goodEntry at he
      rw [if_neg h1, if_pos h2] at he
      cases v <;> simp_all [yamlRepresentable]
    · obtain ⟨ty, -, hall, hwt⟩ := goodEntry_other h1 h2 he
      cases ty <;> cases v <;> simp_all [allowedPType, wellTypedVal, yamlRepresentable]

theorem goodRow_facts {t : Table} {r : Row} (hgt : goodTable t = true)
    (hg : goodRow t r = true) :
    rowFileName r = .ok (rowNameStr r ++ ".md") ∧
    r.convert_to_markdown = .ok ⟨rowDump r, rowBody r⟩ ∧
    format_name (rowNameStr r) = rowNameStr r ∧
    pyRstrip (rowBody r) = rowBody r ∧
    r.cols.get? "name" = some (Value.vStr (rowNameStr r)) ∧
    r.cols.get? "content" = some (Value.vStr (rowBody r)) := by
  obtain ⟨-, -, -, hpn, hpc, -, -, -⟩ := goodTable_parts hgt
  obtain ⟨⟨sn, hsn, hsnf⟩, ⟨sc, hsc, hscf⟩⟩ :=
    goodRow_protected_cols hg (propTypeOf_some_mem hpn) (propTypeOf_some_mem hpc)
  obtain ⟨hnd, -, -, hent⟩ := goodRow_parts hg
  have hns : rowNameStr r = sn := by
    unfold rowNameStr
    rw [hsn]
  have hcs : rowBody r = sc := by
    unfold rowBody
    rw [hsc]
  have hsn' : lookupD "name" r.cols.entries = some (Value.vStr sn) := hsn
  have hsc' : lookupD "content" r.cols.entries = some (Value.vStr sc) := hsc
  refine ⟨?_, ?_, ?_, ?_, ?_, ?_⟩
  · unfold rowFileName
    rw [hsn]
    dsimp only
    rw [hns, hsnf]
  · unfold Row.convert_to_markdown
    have hne : r.cols.entries.isEmpty = false := by
      cases hentries : r.cols.entries with
      | nil =>
        rw [hentries] at hsn'
        simp [lookupD] at hsn'
      | cons a l => rfl
    rw [if_neg (by rw [hne]; exact Bool.false_ne_true)]
    rw [hsn', hsc']
    dsimp only
    rw [except_bind_ok, except_bind_ok]
    have hrep : (dictRemove "content" (dictRemove "name" r.cols.entries)).all
        (fun kv => yamlRepresentable kv.2) = true := by
      rw [List.all_eq_true]
      intro kv hkv
      exact goodEntry_representable
        (hent kv (mem_of_mem_dictRemove _ (mem_of_mem_dictRemove _ hkv)))
    rw [if_pos hrep]
    rw [show rowDump r = dictRemove "content" (dictRemove "name" r.cols.entries) from rfl]
    rw [hcs]
    rfl
  · rw [hns]
    exact hsnf
  · rw [hcs]
    exact hscf
  · rw [hsn, hns]
  · rw [hsc, hcs]

theorem except_pure_bind {α β : Type} (a : α) (f : α → Except PyError β) :
    ((pure a : Except PyError α) >>= f) = f a := rfl

theorem descStep_ok {acc : List (String × String)} {p : Property} {ty : PType}
    (h : p.type = .typed ty) :
    descStep acc p = .ok (dictInsert p.name (typeName ty) acc) := by
  unfold descStep
  rw [h]
  rfl

theorem descList_cons_typed {p : Property} {ty : PType} (h : p.type = .typed ty)
    (props : List Property) :
    descList (p :: props) = (p.name, typeName ty) :: descList props := by
  unfold descList
  rw [List.map_cons, h]

theorem keysOf_append {α : Type} (l₁ l₂ : List (String × α)) :
    keysOf (l₁ ++ l₂) = keysOf l₁ ++ keysOf l₂ := by
  unfold keysOf
  rw [List.map_append]

theorem descFold_ok (props : List Property) :
    ∀ acc : List (String × String),
      (props.map (fun p => p.name)).Nodup →
      (∀ p ∈ props, p.name ∉ keysOf acc) →
      (∀ p ∈ props, ∃ ty, p.type = PTypeField.typed ty) →
      props.foldlM descStep acc = .ok (acc ++ descList props) := by
  induction props with
  | nil =>
    intro acc _ _ _
    simp [descList]
    rfl
  | cons p props ih =>
    intro acc hnd hfresh htyped
    obtain ⟨ty, hty⟩ := htyped p (List.mem_cons_self p props)
    rw [List.map_cons, List.nodup_cons] at hnd
    simp only [List.foldlM_cons]
    rw [descStep_ok hty, except_bind_ok]
    rw [dictInsert_of_not_mem _ _ _ (hfresh p (List.mem_cons_self p props))]
    have hfresh' : ∀ q ∈ props, q.name ∉ keysOf (acc ++ [(p.name, typeName ty)]) := by
      intro q hq
      rw [keysOf_append, List.mem_append]
      rintro (hmem | hmem)
      · exact hfresh q (List.mem_cons_of_mem _ hq) hmem
      · rw [show keysOf [(p.name, typeName ty)] = [p.name] from rfl,
          List.mem_singleton] at hmem
        exact hnd.1 (hmem ▸ List.mem_map.2 ⟨q, hq, rfl⟩)
    rw [ih (acc ++ [(p.name, typeName ty)]) hnd.2 hfresh'
      (fun q hq => htyped q (List.mem_cons_of_mem _ hq))]
    rw [List.append_assoc, descList_cons_typed hty, List.singleton_append]

theorem descriptorOf_good {t : Table} (hg : goodTable t = true) :
    descriptorOf t = .ok (descList t.props) := by
  obtain ⟨-, -, hnd, -, -, htyped, -, -⟩ := goodTable_parts hg
  unfold descriptorOf
  rw [descFold_ok t.props [] hnd (fun p _ hmem => by simp [keysOf] at hmem)
    (fun p hp => ⟨(htyped p hp).choose, (htyped p hp).choose_spec.1⟩)]
  rw [List.nil_append]

theorem saveRowStep_ok {r : Row} {fn : String} {rf : RowFile}
    (hfn : rowFileName r = .ok fn) (hcv : r.convert_to_markdown = .ok rf)
    (d : String) (fs : FS) :
    saveRowStep d fs r = .ok (fsInsertFile fs d fn rf) := by
  unfold saveRowStep
  rw [hfn, except_bind_ok, hcv, except_bind_ok]
  rfl

theorem saveTableRows_spec (d : String) (rows : List Row) :
    ∀ (re pe : Bool) (pf : List (String × List (String × String)))
      (dirs : List (String × List (String × RowFile))) (F : List (String × RowFile)),
      d ∉ keysOf dirs →
      (∀ r ∈ rows, rowFileName r = .ok (rowNameStr r ++ ".md") ∧
        r.convert_to_markdown = .ok (⟨rowDump r, rowBody r⟩ : RowFile)) →
      (∀ r ∈ rows, (rowNameStr r ++ ".md") ∉ keysOf F) →
      (rows.map (fun r => rowNameStr r ++ ".md")).Nodup →
      saveTableRows ⟨re, pe, pf, dirs ++ [(d, F)]⟩ d rows =
        .ok ⟨re, pe, pf, dirs ++ [(d, F ++ rows.map rowFileOf)]⟩ := by
  induction rows with
  | nil =>
    intro re pe pf dirs F _ _ _ _
    simp [saveTableRows]
    rfl
  | cons r rows ih =>
    intro re pe pf dirs F hd hfacts hfresh hnd
    obtain ⟨hfn, hcv⟩ := hfacts r (List.mem_cons_self r rows)
    unfold saveTableRows
    simp only [List.foldlM_cons]
    rw [saveRowStep_ok hfn hcv, except_bind_ok]
    have hins : fsInsertFile ⟨re, pe, pf, dirs ++ [(d, F)]⟩ d
        (rowNameStr r ++ ".md") ⟨rowDump r, rowBody r⟩ =
        ⟨re, pe, pf, dirs ++ [(d, F ++ [rowFileOf r])]⟩ := by
      unfold fsInsertFile
      simp only
      rw [List.map_append, map_if_key_not_mem hd]
      rw [show List.map (fun e => if e.1 = d
            then (e.1, dictInsert (rowNameStr r ++ ".md") (⟨rowDump r, rowBody r⟩ : RowFile) e.2)
            else e) [(d, F)] =
          [(d, dictInsert (rowNameStr r ++ ".md") (⟨rowDump r, rowBody r⟩ : RowFile) F)] from by
        rw [List.map_singleton, if_pos rfl]]
      rw [dictInsert_of_not_mem _ _ _ (hfresh r (List.mem_cons_self r rows))]
      rfl
    rw [hins]
    rw [List.map_cons, List.nodup_cons] at hnd
    have hfresh' : ∀ r' ∈ rows, (rowNameStr r' ++ ".md") ∉ keysOf (F ++ [rowFileOf r]) := by
      intro r' hr'
      rw [keysOf_append, List.mem_append]
      rintro (hmem | hmem)
      · exact hfresh r' (List.mem_cons_of_mem _ hr') hmem
      · rw [show keysOf [rowFileOf r] = [rowNameStr r ++ ".md"] from rfl,
          List.mem_singleton] at hmem
        exact hnd.1 (hmem ▸ List.mem_map.2 ⟨r', hr', rfl⟩)
    have hrest := ih re pe pf dirs (F ++ [rowFileOf r]) hd
      (fun r' hr' => hfacts r' (List.mem_cons_of_mem _ hr')) hfresh' hnd.2
    unfold saveTableRows at hrest
    rw [hrest]
    rw [List.append_assoc, List.singleton_append, List.map_cons]

theorem good_rowNameStr_nodup {t : Table} (hg : goodTable t = true) :
    (t.rows.map rowNameStr).Nodup := by
  obtain ⟨-, -, -, -, -, -, hrows, hnd⟩ := goodTable_parts hg
  have hmap : t.rows.map rowNameVal =
      (t.rows.map rowNameStr).map (fun s => some (Value.vStr s)) := by
    rw [List.map_map]
    apply List.map_congr_left
    intro r hr
    obtain ⟨-, -, -, -, hn, -⟩ := goodRow_facts hg (hrows r hr)
    exact hn
  rw [hmap] at hnd
  exact List.Nodup.of_map _ hnd

theorem append_md_injective : Function.Injective (fun s : String => s ++ ".md") := by
  intro a b h
  apply strDataInj
  have h2 := congrArg String.data h
  rw [strAppendData, strAppendData] at h2
  exact List.append_cancel_right h2

theorem good_fnames_nodup {t : Table} (hg : goodTable t = true) :
    (t.rows.map (fun r => rowNameStr r ++ ".md")).Nodup := by
  have h1 : t.rows.map (fun r => rowNameStr r ++ ".md") =
      (t.rows.map rowNameStr).map (fun s => s ++ ".md") := by
    rw [List.map_map]
    rfl
  rw [h1]
  exact (good_rowNameStr_nodup hg).map append_md_injective

theorem fsAddDirIfMissing_fresh {d : String} (re pe : Bool)
    (pf : List (String × List (String × String)))
    {dirs : List (String × List (String × RowFile))} (hfd : d ∉ keysOf dirs) :
    fsAddDirIfMissing ⟨re, pe, pf, dirs⟩ d = ⟨re, pe, pf, dirs ++ [(d, [])]⟩ := by
  unfold fsAddDirIfMissing
  have hfind : dirs.find? (fun e => e.1 == d) = none :=
    List.find?_eq_none.2 (fun e he hbeq => by
      rw [beq_iff_eq] at hbeq
      exact hfd (hbeq ▸ List.mem_map.2 ⟨e, he, rfl⟩))
  rw [show (⟨re, pe, pf, dirs⟩ : FS).tableDirs = dirs from rfl, hfind]
  rw [if_neg (by simp)]

theorem writeTableStep_spec {t : Table} (hg : goodTable t = true)
    (re pe : Bool) (pf : List (String × List (String × String)))
    (dirs : List (String × List (String × RowFile)))
    (hfd : t.name ∉ keysOf dirs)
    (hfp : t.name ∉ keysOf pf) :
    writeTableStep ⟨re, pe, pf, dirs⟩ t =
      .ok ⟨re, pe, pf ++ [(t.name, descList t.props)],
           dirs ++ [(t.name, t.rows.map rowFileOf)]⟩ := by
  obtain ⟨-, hfix, -, -, -, -, hrows, -⟩ := goodTable_parts hg
  unfold writeTableStep
  rw [hfix]
  dsimp only
  rw [fsAddDirIfMissing_fresh re pe pf hfd]
  rw [descriptorOf_good hg, except_bind_ok]
  dsimp only
  rw [dictInsert_of_not_mem _ _ _ hfp]
  have hfacts : ∀ r ∈ t.rows, rowFileName r = .ok (rowNameStr r ++ ".md") ∧
      r.convert_to_markdown = .ok (⟨rowDump r, rowBody r⟩ : RowFile) := by
    intro r hr
    obtain ⟨h1, h2, -, -, -, -⟩ := goodRow_facts hg (hrows r hr)
    exact ⟨h1, h2⟩
  have hstep := saveTableRows_spec t.name t.rows re pe
    (pf ++ [(t.name, descList t.props)]) dirs [] hfd hfacts
    (fun r _ hmem => by simp [keysOf] at hmem) (good_fnames_nodup hg)
  rw [List.nil_append] at hstep
  exact hstep

theorem writeTables_fold (tables : List Table) :
    ∀ (re pe : Bool) (pf : List (String × List (String × String)))
      (dirs : List (String × List (String × RowFile))),
      (∀ t ∈ tables, goodTable t = true) →
      (tables.map (fun t => t.name)).Nodup →
      (∀ t ∈ tables, t.name ∉ keysOf dirs) →
      (∀ t ∈ tables, t.name ∉ keysOf pf) →
      tables.foldlM writeTableStep ⟨re, pe, pf, dirs⟩ =
        .ok ⟨re, pe, pf ++ tables.map (fun t => (t.name, descList t.props)),
             dirs ++ tables.map (fun t => (t.name, t.rows.map rowFileOf))⟩ := by
  induction tables with
  | nil =>
    intro re pe pf dirs _ _ _ _
    simp only [List.foldlM_nil, List.map_nil, List.append_nil]
    rfl
  | cons t tables ih =>
    intro re pe pf dirs hgood hnd hfd hfp
    simp only [List.foldlM_cons]
    rw [writeTableStep_spec (hgood t (List.mem_cons_self t tables)) re pe pf dirs
      (hfd t (List.mem_cons_self t tables)) (hfp t (List.mem_cons_self t tables)),
      except_bind_ok]
    rw [List.map_cons, List.nodup_cons] at hnd
    have hfd' : ∀ u ∈ tables, u.name ∉ keysOf (dirs ++ [(t.name, t.rows.map rowFileOf)]) := by
      intro u hu
      rw [keysOf_append, List.mem_append]
      rintro (hmem | hmem)
      · exact hfd u (List.mem_cons_of_mem _ hu) hmem
      · rw [show keysOf [(t.name, t.rows.map rowFileOf)] = [t.name] from rfl,
          List.mem_singleton] at hmem
        exact hnd.1 (hmem ▸ List.mem_map.2 ⟨u, hu, rfl⟩)
    have hfp' : ∀ u ∈ tables, u.name ∉ keysOf (pf ++ [(t.name, descList t.props)]) := by
      intro u hu
      rw [keysOf_append, List.mem_append]
      rintro (hmem | hmem)
      · exact hfp u (List.mem_cons_of_mem _ hu) hmem
      · rw [show keysOf [(t.name, descList t.props)] = [t.name] from rfl,
          List.mem_singleton] at hmem
        exact hnd.1 (hmem ▸ List.mem_map.2 ⟨u, hu, rfl⟩)
    rw [ih re pe (pf ++ [(t.name, descList t.props)])
      (dirs ++ [(t.name, t.rows.map rowFileOf)])
      (fun u hu => hgood u (List.mem_cons_of_mem _ hu)) hnd.2 hfd' hfp']
    rw [List.append_assoc, List.append_assoc, List.singleton_append,
      List.singleton_append, List.map_cons, List.map_cons]

theorem save_emptyFS {db : Db} (hg : goodDb db = true) :
    db.save emptyFS = .ok (savedFS db) := by
  obtain ⟨hnd, hgood⟩ := goodDb_parts hg
  have h2 : db.save emptyFS = db.tables.foldlM writeTableStep ⟨true, true, [], []⟩ := rfl
  rw [h2]
  rw [writeTables_fold db.tables true true [] [] hgood hnd
    (fun t _ hmem => by simp [keysOf] at hmem)
    (fun t _ hmem => by simp [keysOf] at hmem)]
  unfold savedFS
  rw [List.nil_append, List.nil_append]

/-! ### Loading a saved well-formed database: properties -/

def loadedProps (props : List Property) : List Property :=
  [⟨"name", .typed .text⟩, ⟨"content", .typed .text⟩] ++
    props.filter (fun p => !(protected_properties.contains p.name))

theorem parse_typeName (ty : PType) : parsePType (typeName ty) = some ty := by
  cases ty <;> rfl

theorem loadPropStep_protected {t : Table} {kv : String × String}
    (h : protected_properties.contains kv.1 = true) :
    loadPropStep t kv = .ok t := by
  unfold loadPropStep
  rw [show t.add_property kv.1 kv.2 = .ok (false, t) from by
    unfold Table.add_property
    rw [if_pos h]]
  rfl

theorem loadPropStep_new {t : Table} {pname : String} {ty : PType}
    (hprot : protected_properties.contains pname = false)
    (hrows : t.rows = []) :
    loadPropStep t (pname, typeName ty) =
      .ok ⟨t.name, t.props ++ [Property.mk pname (.typed ty)], []⟩ := by
  unfold loadPropStep
  rw [show t.add_property pname (typeName ty) =
      .ok (true, ⟨t.name, t.props ++ [Property.mk pname (.typed ty)], []⟩) from by
    unfold Table.add_property
    rw [if_neg (by rw [hprot]; exact Bool.false_ne_true)]
    rw [parse_typeName]
    dsimp only
    unfold Table._update_rows
    dsimp only
    rw [hrows]
    rfl]
  rfl

theorem loadProps_fold (props : List Property) :
    ∀ t : Table, t.rows = [] →
      (∀ p ∈ props, ∃ ty, p.type = PTypeField.typed ty) →
      (descList props).foldlM loadPropStep t =
        .ok ⟨t.name, t.props ++
          props.filter (fun p => !(protected_properties.contains p.name)), []⟩ := by
  induction props with
  | nil =>
    intro t hrows _
    simp only [descList, List.map_nil, List.foldlM_nil, List.filter_nil, List.append_nil]
    rw [← hrows]
    rfl
  | cons p props ih =>
    intro t hrows htyped
    obtain ⟨ty, hty⟩ := htyped p (List.mem_cons_self p props)
    rw [descList_cons_typed hty]
    simp only [List.foldlM_cons]
    rw [List.filter_cons]
    by_cases hprot : protected_properties.contains p.name = true
    · rw [loadPropStep_protected hprot, except_bind_ok]
      rw [ih t hrows (fun q hq => htyped q (List.mem_cons_of_mem _ hq))]
      rw [show (!protected_properties.contains p.name) = false from by rw [hprot]; rfl]
      rw [if_neg Bool.false_ne_true]
    · rw [Bool.not_eq_true] at hprot
      rw [loadPropStep_new hprot hrows, except_bind_ok]
      rw [ih ⟨t.name, t.props ++ [Property.mk p.name (.typed ty)], []⟩ rfl
        (fun q hq => htyped q (List.mem_cons_of_mem _ hq))]
      rw [show (!protected_properties.contains p.name) = true from by rw [hprot]; rfl]
      rw [if_pos rfl]
      dsimp only
      rw [List.append_assoc, List.singleton_append, ← hty]

theorem lookupD_map_pair {β : Type} (f : Table → β) (tables : List Table) :
    ∀ {t : Table}, t ∈ tables → (tables.map (fun u => u.name)).Nodup →
      lookupD t.name (tables.map (fun u => (u.name, f u))) = some (f t) := by
  induction tables with
  | nil =>
    intro t h _
    simp at h
  | cons u tables ih =>
    intro t hmem hnd
    rw [List.map_cons, List.nodup_cons] at hnd
    rw [List.map_cons]
    rcases List.mem_cons.1 hmem with he | he
    · subst he
      simp [lookupD]
    · have hne : u.name ≠ t.name := fun hh =>
        hnd.1 (by rw [hh]; exact List.mem_map.2 ⟨t, he, rfl⟩)
      simp only [lookupD, if_neg hne]
      exact ih he hnd.2

theorem load_properties_saved {db : Db} {t : Table} (hmem : t ∈ db.tables)
    (hnd : (db.tables.map (fun u => u.name)).Nodup)
    (htyped : ∀ p ∈ t.props, ∃ ty, p.type = PTypeField.typed ty) :
    (mkTable t.name).load_properties (savedFS db) =
      .ok ⟨t.name, loadedProps t.props, []⟩ := by
  unfold Table.load_properties
  rw [show lookupD (mkTable t.name).name (savedFS db).propFiles =
      some (descList t.props) from
    lookupD_map_pair (fun u => descList u.props) db.tables hmem hnd]
  dsimp only
  rw [loadProps_fold t.props (mkTable t.name) rfl htyped]
  rfl

/-! ### Loading a saved well-formed database: per-row machinery -/

theorem protected_contains_false {k : String} (h1 : k ≠ "name") (h2 : k ≠ "content") :
    protected_properties.contains k = false := by
  rw [contains_eq_false_iff]
  intro hmem
  rcases List.mem_cons.1 hmem with he | hmem
  · exact h1 he
  rcases List.mem_cons.1 hmem with he | hmem
  · exact h2 he
  · simp at hmem

theorem find?_filter_of_imp {α : Type} {p q : α → Bool} (l : List α)
    (h : ∀ x, p x = true → q x = true) :
    (l.filter q).find? p = l.find? p := by
  induction l with
  | nil => rfl
  | cons a l ih =>
    rw [List.filter_cons]
    by_cases hq : q a = true
    · rw [if_pos hq]
      by_cases hp : p a = true
      · rw [List.find?_cons_of_pos _ hp, List.find?_cons_of_pos _ hp]
      · rw [List.find?_cons_of_neg _ (fun hh => hp hh),
          List.find?_cons_of_neg _ (fun hh => hp hh), ih]
    · rw [if_neg hq]
      have hp : ¬(p a = true) := fun hpa => hq (h a hpa)
      rw [List.find?_cons_of_neg _ hp, ih]

theorem get_property_loaded_name {t1 : Table} {tp : List Property}
    (hp : t1.props = loadedProps tp) :
    t1.get_property "name" = .ok (Property.mk "name" (.typed .text)) := by
  unfold Table.get_property
  rw [hp]
  unfold loadedProps
  rw [List.cons_append, List.find?_cons_of_pos _ (by rfl)]

theorem get_property_loaded_content {t1 : Table} {tp : List Property}
    (hp : t1.props = loadedProps tp) :
    t1.get_property "content" = .ok (Property.mk "content" (.typed .text)) := by
  unfold Table.get_property
  rw [hp]
  unfold loadedProps
  rw [List.cons_append, List.cons_append, List.nil_append]
  rw [List.find?_cons_of_neg _ (by decide), List.find?_cons_of_pos _ (by rfl)]

theorem get_property_loaded_other {t1 : Table} {tp : List Property} {k : String}
    (hp : t1.props = loadedProps tp) (hk1 : k ≠ "name") (hk2 : k ≠ "content") :
    t1.props.find? (fun p => p.name == k) = tp.find? (fun p => p.name == k) := by
  rw [hp]
  unfold loadedProps
  rw [List.cons_append, List.cons_append, List.nil_append]
  rw [List.find?_cons_of_neg _ (by
      simp only [beq_iff_eq]
      exact fun hh => hk1 hh.symm),
    List.find?_cons_of_neg _ (by
      simp only [beq_iff_eq]
      exact fun hh => hk2 hh.symm)]
  exact find?_filter_of_imp tp (fun p hpk => by
    rw [beq_iff_eq] at hpk
    rw [hpk]
    rw [protected_contains_false hk1 hk2]
    rfl)

theorem Cols_set_ok_of {c : Cols} {k : String} {v : Value}
    (h : k = "name" → ∃ s, v = Value.vStr s) :
    ∃ c', c.set k v = .ok c' := by
  unfold Cols.set
  by_cases hc : (c.autoFormat && k == "name") = true
  · rw [if_pos hc]
    simp only [Bool.and_eq_true, beq_iff_eq] at hc
    obtain ⟨s, hs⟩ := h hc.2
    subst hs
    exact ⟨_, rfl⟩
  · rw [if_neg hc]
    exact ⟨_, rfl⟩

theorem allowed_default_ok {ty : PType} (h : allowedPType ty = true) :
    ∃ d, default_value ty = .ok d := by
  cases ty <;> first
    | exact ⟨_, rfl⟩
    | simp [allowedPType] at h

theorem predefFold_ok_of (props : List Property) :
    ∀ c : Cols,
      (∀ p ∈ props, ∃ d, fieldDefault p.type = .ok d ∧
        (p.name = "name" → ∃ s, d = Value.vStr s)) →
      ∃ c', props.foldlM predefStep c = .ok c' := by
  induction props with
  | nil =>
    intro c _
    exact ⟨c, rfl⟩
  | cons p props ih =>
    intro c hh
    obtain ⟨d, hd, hds⟩ := hh p (List.mem_cons_self p props)
    obtain ⟨c₂, hc₂⟩ := Cols_set_ok_of (c := c) (k := p.name) (v := d) hds
    simp only [List.foldlM_cons]
    rw [show predefStep c p = .ok c₂ from by
      unfold predefStep
      rw [hd, except_bind_ok, hc₂]]
    rw [except_bind_ok]
    exact ih c₂ (fun q hq => hh q (List.mem_cons_of_mem _ hq))

theorem overlayFold_ok_of (t : Table) (kw : List (String × Value)) :
    ∀ c : Cols,
      (∀ kv ∈ kw, t.get_property_names.contains kv.1 = true →
        ∃ v', overlayResult t kv.1 kv.2 = .ok v' ∧
          (kv.1 = "name" → ∃ s, v' = Value.vStr s)) →
      ∃ c', kw.foldlM (overlayStep t) c = .ok c' := by
  induction kw with
  | nil =>
    intro c _
    exact ⟨c, rfl⟩
  | cons kv kw ih =>
    intro c hh
    simp only [List.foldlM_cons]
    by_cases hdecl : t.get_property_names.contains kv.1 = true
    · obtain ⟨v', hv', hvs⟩ := hh kv (List.mem_cons_self kv kw) hdecl
      obtain ⟨c₂, hc₂⟩ := Cols_set_ok_of (c := c) (k := kv.1) (v := v') hvs
      rw [show overlayStep t c kv = .ok c₂ from by
        unfold overlayStep
        rw [if_pos hdecl, hv', except_bind_ok, hc₂]]
      rw [except_bind_ok]
      exact ih c₂ (fun kv' hkv' => hh kv' (List.mem_cons_of_mem _ hkv'))
    · rw [show overlayStep t c kv = .ok c from by
        unfold overlayStep
        rw [if_neg hdecl]
        rfl]
      rw [except_bind_ok]
      exact ih c (fun kv' hkv' => hh kv' (List.mem_cons_of_mem _ hkv'))

theorem overlayResult_wellTyped {t1 : Table} {k : String} {v : Value} {p : Property}
    {ty : PType} (hgp : t1.get_property k = .ok p) (hty : p.type = .typed ty)
    (hall : allowedPType ty = true) (hwt : wellTypedVal ty v = true) :
    overlayResult t1 k v = .ok v := by
  unfold overlayResult
  rw [hgp, except_bind_ok, hty]
  cases ty <;> cases v <;>
    simp_all [allowedPType, wellTypedVal, fieldMatches, typeMatchesB, fieldIsCustom,
      PType.is_custom, except_bind_ok] <;> rfl

theorem dupScan_false_of {n : String} (rows : List Row) :
    (∀ r ∈ rows, ∃ v, r.cols.get? "name" = some v) →
    (∀ r ∈ rows, r.cols.get? "name" ≠ some (Value.vStr (format_name n))) →
    dupScan rows (Value.vStr n) = .ok false := by
  unfold dupScan
  induction rows with
  | nil =>
    intro _ _
    rfl
  | cons r rows ih =>
    intro hdef hne
    simp only [List.foldlM_cons]
    obtain ⟨v, hv⟩ := hdef r (List.mem_cons_self r rows)
    have hvne : v ≠ Value.vStr (format_name n) := fun hh =>
      hne r (List.mem_cons_self r rows) (by rw [hv, hh])
    rw [show dupStep (Value.vStr n) false r = .ok false from by
      unfold dupStep
      rw [if_neg Bool.false_ne_true, hv]
      dsimp only
      rw [except_bind_ok]
      rw [show (decide (v = Value.vStr (format_name n))) = false from
        decide_eq_false hvne]
      rfl]
    rw [except_bind_ok]
    exact ih (fun r' h' => hdef r' (List.mem_cons_of_mem _ h'))
      (fun r' h' => hne r' (List.mem_cons_of_mem _ h'))

theorem lookupD_of_mem_nodup {α : Type} {l : List (String × α)} {kv : String × α}
    (hnd : (keysOf l).Nodup) (h : kv ∈ l) : lookupD kv.1 l = some kv.2 := by
  induction l with
  | nil => simp at h
  | cons hd tl ih =>
    obtain ⟨k0, v0⟩ := hd
    rw [show keysOf ((k0, v0) :: tl) = k0 :: keysOf tl from rfl, List.nodup_cons] at hnd
    rcases List.mem_cons.1 h with he | he
    · subst he
      simp [lookupD]
    · have hne : k0 ≠ kv.1 := fun hh =>
        hnd.1 (by rw [hh]; exact List.mem_map.2 ⟨kv, he, rfl⟩)
      simp only [lookupD, if_neg hne]
      exact ih hnd.2 he

theorem addRowCore_ok_construct {t : Table} {kw : List (String × Value)} {nameV : Value}
    {c0 c1 : Cols}
    (hlk : lookupD "name" kw = some nameV)
    (hdup : dupScan t.rows nameV = .ok false)
    (hc0 : t.props.foldlM predefStep (⟨[], true⟩ : Cols) = .ok c0)
    (hc1 : kw.foldlM (overlayStep t) c0 = .ok c1) :
    addRowCore t kw = .ok (true, { t with rows := t.rows ++ [⟨c1, none⟩] }) := by
  unfold addRowCore
  rw [hlk]
  dsimp only
  rw [hdup, except_bind_ok, if_neg Bool.false_ne_true, hc0, except_bind_ok, hc1,
    except_bind_ok]

theorem load_row_reconstruct {t : Table} (hgt : goodTable t = true)
    {r : Row} (hr : r ∈ t.rows) (t1 : Table)
    (hp : t1.props = loadedProps t.props)
    (hdef : ∀ r' ∈ t1.rows, ∃ v, r'.cols.get? "name" = some v)
    (hdup : ∀ r' ∈ t1.rows, r'.cols.get? "name" ≠ some (Value.vStr (rowNameStr r))) :
    ∃ c1 : Cols,
      t1.load_row_file (rowNameStr r ++ ".md") (⟨rowDump r, rowBody r⟩ : RowFile) =
        .ok { t1 with rows := t1.rows ++ [⟨c1, none⟩] } ∧
      (∀ k, lookupD k c1.entries = r.cols.get? k) ∧
      lookupD "name" c1.entries = some (Value.vStr (rowNameStr r)) := by
  obtain ⟨-, -, -, hpn, hpc, htyped, hrowsg, -⟩ := goodTable_parts hgt
  have hg := hrowsg r hr
  obtain ⟨hfn, hcv, hnfix, hcfix, hnlook, hclook⟩ := goodRow_facts hgt hg
  obtain ⟨hnd, hsub, hsup, hent⟩ := goodRow_parts hg
  have hname_nodot : '.' ∉ (rowNameStr r).data := by
    rw [← hnfix]
    exact format_name_no_dot _
  have hrn : (⟨removeMd ((rowNameStr r ++ ".md") : String).data⟩ : String) = rowNameStr r := by
    apply strDataInj
    show removeMd ((rowNameStr r ++ ".md") : String).data = (rowNameStr r).data
    rw [strAppendData]
    rw [show (".md" : String).data = ['.', 'm', 'd'] from by decide]
    exact removeMd_append_md hname_nodot
  have hkw : dictInsert "content" (Value.vStr (pyRstrip (rowBody r)))
      (dictInsert "name" (Value.vStr (rowNameStr r)) (rowDump r)) =
      rowDump r ++ [("name", Value.vStr (rowNameStr r)),
        ("content", Value.vStr (rowBody r))] := by
    rw [hcfix]
    rw [dictInsert_of_not_mem _ _ _ (rowDump_name_not_mem hnd)]
    rw [dictInsert_of_not_mem _ _ _ (show ("content" : String) ∉
        keysOf (rowDump r ++ [("name", Value.vStr (rowNameStr r))]) from by
      rw [keysOf_append, List.mem_append]
      rintro (hmem | hmem)
      · exact rowDump_content_not_mem hnd hmem
      · rw [show keysOf [("name", Value.vStr (rowNameStr r))] = ["name"] from rfl,
          List.mem_singleton] at hmem
        exact absurd hmem (by decide))]
    rw [List.append_assoc]
    rfl
  have hdk : keysOf (rowDump r) = ((keysOf r.cols.entries).erase "name").erase "content" :=
    rowDump_keys r
  have hdknd : (keysOf (rowDump r)).Nodup := by
    rw [hdk]
    exact List.Nodup.erase _ (List.Nodup.erase _ hnd)
  have hkwkeys : keysOf (rowDump r ++ [("name", Value.vStr (rowNameStr r)),
      ("content", Value.vStr (rowBody r))]) =
      keysOf (rowDump r) ++ ["name", "content"] := by
    rw [keysOf_append]
    rfl
  have hkwnd : (keysOf (rowDump r ++ [("name", Value.vStr (rowNameStr r)),
      ("content", Value.vStr (rowBody r))])).Nodup := by
    rw [hkwkeys, List.nodup_append]
    refine ⟨hdknd, by decide, ?_⟩
    intro a ha hb
    rcases List.mem_cons.1 hb with he | hb2
    · subst he
      exact rowDump_name_not_mem hnd ha
    rcases List.mem_cons.1 hb2 with he | hb3
    · subst he
      exact rowDump_content_not_mem hnd ha
    · simp at hb3
  have hdump_mem : ∀ kv ∈ rowDump r, kv.1 ≠ "name" ∧ kv.1 ≠ "content" ∧
      kv ∈ r.cols.entries := by
    intro kv hkv
    refine ⟨?_, ?_, mem_of_mem_dictRemove _ (mem_of_mem_dictRemove _ hkv)⟩
    · intro hh
      exact rowDump_name_not_mem hnd (hh ▸ List.mem_map.2 ⟨kv, hkv, rfl⟩)
    · intro hh
      exact rowDump_content_not_mem hnd (hh ▸ List.mem_map.2 ⟨kv, hkv, rfl⟩)
  have hdump_lookup : ∀ kv ∈ rowDump r, r.cols.get? kv.1 = some kv.2 := by
    intro kv hkv
    show lookupD kv.1 r.cols.entries = some kv.2
    exact lookupD_of_mem_nodup hnd (hdump_mem kv hkv).2.2
  have ht1names_eq : t1.get_property_names = "name" :: "content" ::
      (t.props.filter (fun p => !(protected_properties.contains p.name))).map
        (fun p => p.name) := by
    rw [show t1.get_property_names = t1.props.map (fun p => p.name) from rfl, hp]
    unfold loadedProps
    rw [List.cons_append, List.cons_append, List.nil_append, List.map_cons, List.map_cons]
  have hdecl_name : t1.get_property_names.contains "name" = true := by
    rw [contains_iff_mem, ht1names_eq]
    exact List.mem_cons_self _ _
  have hdecl_content : t1.get_property_names.contains "content" = true := by
    rw [contains_iff_mem, ht1names_eq]
    exact List.mem_cons_of_mem _ (List.mem_cons_self _ _)
  have hdecl_other : ∀ k ∈ keysOf (rowDump r),
      t1.get_property_names.contains k = true := by
    intro k hk
    rw [contains_iff_mem, ht1names_eq]
    have hk1 : k ≠ "name" := fun hh => rowDump_name_not_mem hnd (hh ▸ hk)
    have hk2 : k ≠ "content" := fun hh => rowDump_content_not_mem hnd (hh ▸ hk)
    have hkt : k ∈ t.get_property_names := hsub k (by
      rw [hdk] at hk
      exact List.mem_of_mem_erase (List.mem_of_mem_erase hk))
    rw [show t.get_property_names = t.props.map (fun p => p.name) from rfl] at hkt
    obtain ⟨p, hpmem, hpname⟩ := List.mem_map.1 hkt
    exact List.mem_cons_of_mem _ (List.mem_cons_of_mem _
      (List.mem_map.2 ⟨p, List.mem_filter.2 ⟨hpmem, by
        rw [hpname, protected_contains_false hk1 hk2]
        rfl⟩, hpname⟩))
  have hov_name : overlayResult t1 "name" (Value.vStr (rowNameStr r)) =
      .ok (Value.vStr (rowNameStr r)) := by
    unfold overlayResult
    rw [get_property_loaded_name hp, except_bind_ok]
    rfl
  have hov_content : overlayResult t1 "content" (Value.vStr (rowBody r)) =
      .ok (Value.vStr (rowBody r)) := by
    unfold overlayResult
    rw [get_property_loaded_content hp, except_bind_ok]
    rfl
  have hov_dump : ∀ kv ∈ rowDump r, overlayResult t1 kv.1 kv.2 = .ok kv.2 := by
    intro kv hkv
    obtain ⟨hk1, hk2, hkvmem⟩ := hdump_mem kv hkv
    obtain ⟨ty, hpt, hall, hwt⟩ := goodEntry_other hk1 hk2 (hent kv hkvmem)
    unfold propTypeOf at hpt
    cases hf : t.props.find? (fun p => p.name == kv.1) with
    | none =>
      rw [hf] at hpt
      simp at hpt
    | some p =>
      rw [hf] at hpt
      have hpt2 : some p.type = some (PTypeField.typed ty) := hpt
      injection hpt2 with hpt2
      have hgp : t1.get_property kv.1 = .ok p := by
        unfold Table.get_property
        rw [get_property_loaded_other hp hk1 hk2, hf]
      exact overlayResult_wellTyped hgp hpt2 hall hwt
  have hov_all : ∀ kv ∈ (rowDump r ++ [("name", Value.vStr (rowNameStr r)),
      ("content", Value.vStr (rowBody r))]),
      t1.get_property_names.contains kv.1 = true →
      ∃ v', overlayResult t1 kv.1 kv.2 = .ok v' ∧
        (kv.1 = "name" → ∃ s, v' = Value.vStr s) := by
    intro kv hkv _
    rcases List.mem_append.1 hkv with hkv | hkv
    · exact ⟨kv.2, hov_dump kv hkv, fun hh => absurd hh (hdump_mem kv hkv).1⟩
    rcases List.mem_cons.1 hkv with he | hkv2
    · subst he
      exact ⟨Value.vStr (rowNameStr r), hov_name, fun _ => ⟨_, rfl⟩⟩
    rcases List.mem_cons.1 hkv2 with he | hkv3
    · subst he
      exact ⟨Value.vStr (rowBody r), hov_content, fun _ => ⟨_, rfl⟩⟩
    · simp at hkv3
  have hpredef_cond : ∀ p ∈ t1.props, ∃ d, fieldDefault p.type = .ok d ∧
      (p.name = "name" → ∃ s, d = Value.vStr s) := by
    rw [hp]
    intro p hp'
    unfold loadedProps at hp'
    rw [List.cons_append, List.cons_append, List.nil_append] at hp'
    rcases List.mem_cons.1 hp' with he | hp'
    · subst he
      exact ⟨Value.vStr "", rfl, fun _ => ⟨"", rfl⟩⟩
    rcases List.mem_cons.1 hp' with he | hp'
    · subst he
      exact ⟨Value.vStr "", rfl, fun _ => ⟨"", rfl⟩⟩
    · have hpmem := List.mem_of_mem_filter hp'
      have hfp := (List.mem_filter.1 hp').2
      obtain ⟨ty, hty, hall⟩ := htyped p hpmem
      obtain ⟨d, hd⟩ := allowed_default_ok hall
      refine ⟨d, by rw [hty]; exact hd, fun hh => ?_⟩
      exfalso
      rw [hh] at hfp
      exact absurd hfp (by decide)
  obtain ⟨c0, hc0⟩ := predefFold_ok_of t1.props (⟨[], true⟩ : Cols) hpredef_cond
  have hc0fmt : c0.autoFormat = true := (predefFold_spec t1.props hc0).1
  obtain ⟨c1, hc1⟩ := overlayFold_ok_of t1 (rowDump r ++ [("name", Value.vStr (rowNameStr r)),
    ("content", Value.vStr (rowBody r))]) c0 hov_all
  have hlkname : lookupD "name" (rowDump r ++ [("name", Value.vStr (rowNameStr r)),
      ("content", Value.vStr (rowBody r))]) = some (Value.vStr (rowNameStr r)) := by
    rw [lookupD_append_of_not_mem _ _ (rowDump_name_not_mem hnd)]
    simp [lookupD]
  have hdupscan : dupScan t1.rows (Value.vStr (rowNameStr r)) = .ok false :=
    dupScan_false_of t1.rows hdef (by rw [hnfix]; exact hdup)
  have hadd : t1.add_row [] (dictInsert "content" (Value.vStr (pyRstrip (rowBody r)))
      (dictInsert "name" (Value.vStr (rowNameStr r)) (rowDump r))) =
      .ok (true, { t1 with rows := t1.rows ++ [⟨c1, none⟩] }) := by
    rw [add_row_eq_core (buildKwargs_nil_args t1 _)]
    rw [hkw]
    exact addRowCore_ok_construct hlkname hdupscan hc0 hc1
  have hovl := overlayFold_lookup t1 (rowDump r ++ [("name", Value.vStr (rowNameStr r)),
    ("content", Value.vStr (rowBody r))]) hkwnd hc1
  have hlookup : ∀ k, lookupD k c1.entries = r.cols.get? k := by
    intro k
    by_cases hk1 : k = "name"
    · subst hk1
      obtain ⟨v', hv', hlkc, -⟩ := hovl ("name", Value.vStr (rowNameStr r))
        (List.mem_append_right _ (List.mem_cons_self _ _)) hdecl_name
      dsimp only at hv' hlkc
      rw [hov_name] at hv'
      injection hv' with hv'
      subst hv'
      rw [hc0fmt] at hlkc
      rw [show setVal true "name" (Value.vStr (rowNameStr r)) =
          Value.vStr (format_name (rowNameStr r)) from rfl, hnfix] at hlkc
      rw [hlkc, hnlook]
    by_cases hk2 : k = "content"
    · subst hk2
      obtain ⟨v', hv', hlkc, -⟩ := hovl ("content", Value.vStr (rowBody r))
        (List.mem_append_right _ (List.mem_cons_of_mem _ (List.mem_cons_self _ _)))
        hdecl_content
      dsimp only at hv' hlkc
      rw [hov_content] at hv'
      injection hv' with hv'
      subst hv'
      rw [hc0fmt] at hlkc
      rw [show setVal true "content" (Value.vStr (rowBody r)) =
          Value.vStr (rowBody r) from rfl] at hlkc
      rw [hlkc, hclook]
    by_cases hk3 : k ∈ keysOf (rowDump r)
    · obtain ⟨kv, hkv, hkeq⟩ := List.mem_map.1 hk3
      subst hkeq
      obtain ⟨v', hv', hlkc, -⟩ := hovl kv (List.mem_append_left _ hkv)
        (hdecl_other kv.1 (List.mem_map.2 ⟨kv, hkv, rfl⟩))
      rw [hov_dump kv hkv] at hv'
      injection hv' with hv'
      subst hv'
      rw [hc0fmt] at hlkc
      have hsv : setVal true kv.1 kv.2 = kv.2 := by
        unfold setVal
        rw [if_neg]
        simp only [Bool.and_eq_true, beq_iff_eq]
        rintro ⟨-, hh⟩
        exact (hdump_mem kv hkv).1 hh
      rw [hsv] at hlkc
      rw [hlkc, hdump_lookup kv hkv]
    · have hnotkw : k ∉ keysOf (rowDump r ++ [("name", Value.vStr (rowNameStr r)),
          ("content", Value.vStr (rowBody r))]) := by
        rw [hkwkeys, List.mem_append]
        rintro (hmem | hmem)
        · exact hk3 hmem
        rcases List.mem_cons.1 hmem with he | hmem2
        · exact hk1 he
        rcases List.mem_cons.1 hmem2 with he | hmem3
        · exact hk2 he
        · simp at hmem3
      rw [(overlayFold_spec t1 _ hc1).2.1 k hnotkw]
      have hknames : k ∉ t1.props.map (fun p => p.name) := by
        intro hmem
        rw [show t1.props.map (fun p => p.name) = t1.get_property_names from rfl,
          ht1names_eq] at hmem
        rcases List.mem_cons.1 hmem with he | hmem2
        · exact hk1 he
        rcases List.mem_cons.1 hmem2 with he | hmem3
        · exact hk2 he
        obtain ⟨p, hpmem, hpname⟩ := List.mem_map.1 hmem3
        have hkt : k ∈ keysOf r.cols.entries := hsup k (by
          rw [show t.get_property_names = t.props.map (fun p => p.name) from rfl]
          exact List.mem_map.2 ⟨p, List.mem_of_mem_filter hpmem, hpname⟩)
        apply hk3
        rw [hdk]
        exact (List.Nodup.mem_erase_iff (List.Nodup.erase _ hnd)).2 ⟨hk2,
          (List.Nodup.mem_erase_iff hnd).2 ⟨hk1, hkt⟩⟩
      have hkeys0 := (predefFold_spec t1.props hc0).2.2 k
      have hc0none : lookupD k c0.entries = none := (lookupD_eq_none_iff _ _).2
        (fun hmem => hknames ((hkeys0.1 hmem).resolve_left (by simp [keysOf])))
      have hrnone : r.cols.get? k = none := by
        show lookupD k r.cols.entries = none
        rw [lookupD_eq_none_iff]
        intro hmem
        apply hk3
        rw [hdk]
        exact (List.Nodup.mem_erase_iff (List.Nodup.erase _ hnd)).2 ⟨hk2,
          (List.Nodup.mem_erase_iff hnd).2 ⟨hk1, hmem⟩⟩
      rw [hc0none, hrnone]
  refine ⟨c1, ?_, hlookup, (hlookup "name").trans hnlook⟩
  unfold Table.load_row_file
  dsimp only
  rw [hrn, hadd, except_bind_ok]
  rfl

theorem load_rows_fold {t : Table} (hgt : goodTable t = true) (nm : String) :
    ∀ (rem : List Row) (loaded : List Row),
      (∀ r ∈ rem, r ∈ t.rows) →
      ((rem.map rowNameStr).Nodup) →
      (∀ r' ∈ loaded, ∃ v, r'.cols.get? "name" = some v) →
      (∀ r' ∈ loaded, ∀ r ∈ rem, r'.cols.get? "name" ≠ some (Value.vStr (rowNameStr r))) →
      ∃ rows' : List Row,
        (rem.map rowFileOf).foldlM loadRowStep
          (⟨nm, loadedProps t.props, loaded⟩ : Table) =
          .ok ⟨nm, loadedProps t.props, loaded ++ rows'⟩ ∧
        List.Forall₂ (fun r' r => ∀ k, r'.cols.get? k = r.cols.get? k) rows' rem := by
  intro rem
  induction rem with
  | nil =>
    intro loaded _ _ _ _
    refine ⟨[], ?_, List.Forall₂.nil⟩
    simp only [List.map_nil, List.foldlM_nil, List.append_nil]
    rfl
  | cons r rem ih =>
    intro loaded hmem hnd hdef hne
    simp only [List.map_cons, List.foldlM_cons]
    obtain ⟨c1, hfile, hlook, hname⟩ := load_row_reconstruct hgt
      (hmem r (List.mem_cons_self r rem)) ⟨nm, loadedProps t.props, loaded⟩ rfl
      hdef (fun r' hr' => hne r' hr' r (List.mem_cons_self r rem))
    rw [show loadRowStep (⟨nm, loadedProps t.props, loaded⟩ : Table) (rowFileOf r) =
        .ok ⟨nm, loadedProps t.props, loaded ++ [⟨c1, none⟩]⟩ from by
      unfold loadRowStep
      exact hfile]
    rw [except_bind_ok]
    rw [List.map_cons, List.nodup_cons] at hnd
    have hdef' : ∀ r' ∈ loaded ++ [(⟨c1, none⟩ : Row)],
        ∃ v, r'.cols.get? "name" = some v := by
      intro r' hr'
      rcases List.mem_append.1 hr' with h' | h'
      · exact hdef r' h'
      · rw [List.mem_singleton] at h'
        subst h'
        exact ⟨_, hname⟩
    have hne' : ∀ r' ∈ loaded ++ [(⟨c1, none⟩ : Row)], ∀ q ∈ rem,
        r'.cols.get? "name" ≠ some (Value.vStr (rowNameStr q)) := by
      intro r' hr' q hq
      rcases List.mem_append.1 hr' with h' | h'
      · exact hne r' h' q (List.mem_cons_of_mem _ hq)
      · rw [List.mem_singleton] at h'
        subst h'
        intro hh
        rw [show ((⟨c1, none⟩ : Row)).cols.get? "name" = lookupD "name" c1.entries
          from rfl, hname] at hh
        injection hh with hh
        injection hh with hh
        exact hnd.1 (by rw [hh]; exact List.mem_map.2 ⟨q, hq, rfl⟩)
    obtain ⟨rows', hfold, hrel⟩ := ih (loaded ++ [⟨c1, none⟩])
      (fun q hq => hmem q (List.mem_cons_of_mem _ hq)) hnd.2 hdef' hne'
    refine ⟨⟨c1, none⟩ :: rows', ?_, List.Forall₂.cons (fun k => hlook k) hrel⟩
    rw [hfold]
    rw [List.append_assoc, List.singleton_append]

theorem loadTableDir_saved {db : Db} (hgdb : goodDb db = true) {t : Table}
    (hmem : t ∈ db.tables) :
    ∃ rows', loadTableDir (savedFS db) t.name (t.rows.map rowFileOf) =
        .ok ⟨t.name, loadedProps t.props, rows'⟩ ∧
      List.Forall₂ (fun r' r => ∀ k, r'.cols.get? k = r.cols.get? k) rows' t.rows := by
  obtain ⟨hnd, hgood⟩ := goodDb_parts hgdb
  have hgt := hgood t hmem
  obtain ⟨-, -, -, -, -, htyped, -, -⟩ := goodTable_parts hgt
  obtain ⟨rows', hfold, hrel⟩ := load_rows_fold hgt t.name t.rows []
    (fun r hr => hr) (good_rowNameStr_nodup hgt)
    (fun r' hr' => by simp at hr') (fun r' hr' => by simp at hr')
  rw [List.nil_append] at hfold
  refine ⟨rows', ?_, hrel⟩
  unfold loadTableDir
  dsimp only
  rw [load_properties_saved hmem hnd
    (fun p hp => ⟨(htyped p hp).choose, (htyped p hp).choose_spec.1⟩), except_bind_ok]
  exact hfold

theorem forall2_map_name {R : Table → Table → Prop} (hR : ∀ a b, R a b → a.name = b.name) :
    ∀ {l₁ l₂ : List Table}, List.Forall₂ R l₁ l₂ →
      l₁.map (fun u => u.name) = l₂.map (fun u => u.name) := by
  intro l₁ l₂ h
  induction h with
  | nil => rfl
  | @cons a b l₁ l₂ hab h ih =>
    rw [List.map_cons, List.map_cons, ih, hR a b hab]

theorem loadDirs_fold {db : Db} (hgdb : goodDb db = true) :
    ∀ (tables : List Table) (acc : List Table),
      (∀ u ∈ tables, u ∈ db.tables) →
      ∃ ts' : List Table,
        (tables.map (fun u => (u.name, u.rows.map rowFileOf))).foldlM
          (loadDirStep (savedFS db)) acc = .ok (acc ++ ts') ∧
        List.Forall₂ (fun t' u => t'.name = u.name ∧
          List.Forall₂ (fun r' r => ∀ k, r'.cols.get? k = r.cols.get? k) t'.rows u.rows)
          ts' tables := by
  intro tables
  induction tables with
  | nil =>
    intro acc _
    refine ⟨[], ?_, List.Forall₂.nil⟩
    simp only [List.map_nil, List.foldlM_nil, List.append_nil]
    rfl
  | cons u tables ih =>
    intro acc hmem
    simp only [List.map_cons, List.foldlM_cons]
    have hgu := (goodDb_parts hgdb).2 u (hmem u (List.mem_cons_self u tables))
    obtain ⟨hne_name, hfix, -, -, -, -, -, -⟩ := goodTable_parts hgu
    obtain ⟨c, cs, hdata⟩ : ∃ c cs, u.name.data = c :: cs := by
      cases hd : u.name.data with
      | nil =>
        exact absurd (strDataInj (show u.name.data = ("" : String).data from by
          rw [hd])) hne_name
      | cons c cs => exact ⟨c, cs, rfl⟩
    have hcnot : ¬(c = '.') := by
      intro hh
      have hmemdot : '.' ∈ u.name.data := by
        rw [hdata, hh]
        exact List.mem_cons_self _ _
      rw [← hfix] at hmemdot
      exact format_name_no_dot u.name hmemdot
    obtain ⟨rows', htd, hrel⟩ := loadTableDir_saved hgdb (hmem u (List.mem_cons_self u tables))
    rw [show loadDirStep (savedFS db) acc (u.name, u.rows.map rowFileOf) =
        .ok (acc ++ [(⟨u.name, loadedProps u.props, rows'⟩ : Table)]) from by
      unfold loadDirStep
      dsimp only
      rw [hdata]
      dsimp only
      rw [if_neg hcnot]
      rw [htd, except_bind_ok]
      rfl]
    rw [except_bind_ok]
    obtain ⟨ts', hfold, hrel2⟩ := ih (acc ++ [⟨u.name, loadedProps u.props, rows'⟩])
      (fun v hv => hmem v (List.mem_cons_of_mem _ hv))
    refine ⟨⟨u.name, loadedProps u.props, rows'⟩ :: ts', ?_,
      List.Forall₂.cons ⟨rfl, hrel⟩ hrel2⟩
    rw [hfold]
    rw [List.append_assoc, List.singleton_append]

theorem loadDb_savedFS {db : Db} (hg : goodDb db = true) :
    ∃ db' : Db, loadDb db.path (savedFS db) = .ok db' ∧
      db'.tables.map (fun u => u.name) = db.tables.map (fun u => u.name) ∧
      List.Forall₂ (fun t' u =>
        List.Forall₂ (fun r' r => ∀ k, r'.cols.get? k = r.cols.get? k) t'.rows u.rows)
        db'.tables db.tables := by
  obtain ⟨ts', hfold, hrel⟩ := loadDirs_fold hg db.tables [] (fun u hu => hu)
  rw [List.nil_append] at hfold
  refine ⟨⟨db.path, ts'⟩, ?_, ?_, ?_⟩
  · unfold loadDb
    rw [if_neg (fun hh : (savedFS db).rootExists = false => Bool.noConfusion hh)]
    rw [show (savedFS db).tableDirs =
      db.tables.map (fun u => (u.name, u.rows.map rowFileOf)) from rfl]
    rw [hfold, except_bind_ok]
  · exact forall2_map_name (fun a b hab => hab.1) hrel
  · exact List.Forall₂.imp (fun a b hab => hab.2) hrel

/-- C1 (amended): for a well-formed database — nonempty table names fixed
    under `format_name`, duplicate-free table/property/row names, the
    reserved `name`/`content` text properties present and well-typed, every
    other column well-typed at a losslessly-representable type
    (text/number/checkbox/select/relation/multiselect), every row's column
    set matching the schema, row `name` values `format_name`-fixed strings
    and `content` values right-stripped strings — `save` onto an empty
    filesystem succeeds, and loading the resulting filesystem yields a
    database with identical table names and, table by table and row by row,
    identical column values under every key. (The unamended claim fails:
    see the counterexample for a table name not fixed under `format_name`.) -/
theorem C1_round_trip (db : Db) (hg : goodDb db = true) :
    ∃ fs1 db', db.save emptyFS = .ok fs1 ∧ loadDb db.path fs1 = .ok db' ∧
      db'.tables.map (fun u => u.name) = db.tables.map (fun u => u.name) ∧
      List.Forall₂ (fun t' u =>
        List.Forall₂ (fun r' r => ∀ k, r'.cols.get? k = r.cols.get? k) t'.rows u.rows)
        db'.tables db.tables := by
  obtain ⟨db', h1, h2, h3⟩ := loadDb_savedFS hg
  exact ⟨savedFS db, db', save_emptyFS hg, h1, h2, h3⟩

def c1wDb : Db :=
  ⟨"p", [⟨"tasks",
    [Property.mk "name" (.typed .text), Property.mk "content" (.typed .text),
     Property.mk "done" (.typed .checkbox)],
    [⟨⟨[("name", Value.vStr "eat_dinner"), ("content", Value.vStr "yum"),
        ("done", Value.vBool false)], true⟩, none⟩]⟩]⟩

/-- Witness for `C1_round_trip` at a concrete well-formed database. -/
theorem C1_round_trip_witness :
    goodDb c1wDb = true ∧
    (∃ fs1 db', c1wDb.save emptyFS = .ok fs1 ∧ loadDb c1wDb.path fs1 = .ok db' ∧
      db'.tables.map (fun u => u.name) = c1wDb.tables.map (fun u => u.name) ∧
      List.Forall₂ (fun t' u =>
        List.Forall₂ (fun r' r => ∀ k, r'.cols.get? k = r.cols.get? k) t'.rows u.rows)
        db'.tables c1wDb.tables) :=
  ⟨by decide, C1_round_trip c1wDb (by decide)⟩
